import Mathlib

/-!
Shallow embedding of the forrustts core: the `NestedForwardList` arena
(nested_forward_list.rs), the table collection with its row-validated
insertions and sorting (tables.rs), segments (segment.rs), and the
simplification driver (simplify_from_edge_buffer.rs), together with
proofs about the specified behaviour of these components.

Machine integers (`i32`, `i64`) are modelled as `Int`, `usize` as `Nat`;
none of the verified properties depend on wrap-around behaviour.
Fallible Rust methods taking `&mut self` are modelled as functions
returning a pair of the `Result` and the post-state, so that the
unchanged-on-error behaviour is visible in the model.
-/

set_option maxHeartbeats 1000000

namespace Forrustts

/-- Decidable equality for `Except`, used to evaluate the embeddings on
concrete inputs. -/
def exceptDecEq {ε α : Type} [DecidableEq ε] [DecidableEq α] :
    (a b : Except ε α) → Decidable (a = b)
  | .error e1, .error e2 =>
    if h : e1 = e2 then .isTrue (by rw [h])
    else .isFalse (by intro hc; injection hc; exact h ‹_›)
  | .error _, .ok _ => .isFalse (by intro hc; exact Except.noConfusion hc)
  | .ok _, .error _ => .isFalse (by intro hc; exact Except.noConfusion hc)
  | .ok a1, .ok a2 =>
    if h : a1 = a2 then .isTrue (by rw [h])
    else .isFalse (by intro hc; injection hc; exact h ‹_›)

instance {ε α : Type} [DecidableEq ε] [DecidableEq α] :
    DecidableEq (Except ε α) := exceptDecEq

/-- Embedding of Rust `i64::cmp` / `i32::cmp`. -/
def icmp (a b : Int) : Ordering :=
  if a < b then .lt else if b < a then .gt else .eq

/-- Embedding of Rust `usize::cmp`. -/
def ncmp (a b : Nat) : Ordering :=
  if a < b then .lt else if b < a then .gt else .eq

/-- Embedding of Rust `Vec::resize(n, v)`: truncate to `n` elements, or pad
with copies of `v` up to length `n`. -/
def resizeL (l : List α) (n : Nat) (v : α) : List α :=
  if n ≤ l.length then l.take n else l ++ List.replicate (n - l.length) v

/-- Insertion step of a stable sort by a comparator: `x` is placed before the
first element it compares `Less` to, hence after every element it ties with. -/
def insertCmp (cmp : α → α → Ordering) (x : α) : List α → List α
  | [] => [x]
  | y :: ys => if cmp x y = .lt then x :: y :: ys else y :: insertCmp cmp x ys

/-- Stable sort by a comparator, modelling Rust `slice::sort_by` (which is a
stable sort; for a comparator that is a total preorder the stable result is
unique, so insertion sort is a faithful model). -/
def sortCmp (cmp : α → α → Ordering) (l : List α) : List α :=
  l.foldl (fun acc x => insertCmp cmp x acc) []

/-- Rust `usize::MAX`, used by the driver as a not-found sentinel. -/
def usizeMax : Nat := 2 ^ 64 - 1

/-- Error type for `NestedForwardList` operations (nested_forward_list.rs). -/
inductive NestedForwardListError
  | NullTail
  | InvalidIndex
deriving DecidableEq

/-- The four flattened parallel arrays of `NestedForwardList`
(nested_forward_list.rs): heads and tails indexed by list key, next links
and owned values indexed by record index; `-1` is the null sentinel. -/
structure NestedForwardList (V : Type) where
  head_ : List Int
  tail_ : List Int
  next_ : List Int
  data_ : List V
deriving DecidableEq

namespace NestedForwardList

variable {V : Type} {σ : Type}

/-- The null sentinel value, `-1`. -/
def null : Int := -1

/-- Embedding of `NestedForwardList::new()`. -/
def new : NestedForwardList V := ⟨[], [], [], []⟩

/-- Embedding of the private `insert_new_record`: push the value, point the
key's head and tail at the fresh record (index = old data length), and push a
null next link. -/
def insert_new_record (s : NestedForwardList V) (k : Nat) (v : V) :
    NestedForwardList V :=
  { head_ := s.head_.set k ((s.data_.length : Int))
    tail_ := s.tail_.set k ((s.data_.length : Int))
    next_ := s.next_ ++ [null]
    data_ := s.data_ ++ [v] }

/-- Embedding of the private `check_key`: negative keys are invalid. -/
def check_key (k : Int) : Except NestedForwardListError Unit :=
  if k < 0 then .error .InvalidIndex else .ok ()

/-- Embedding of the private `check_key_range`: `k >= n` is invalid. -/
def check_key_range (k n : Nat) : Except NestedForwardListError Unit :=
  if n ≤ k then .error .InvalidIndex else .ok ()

/-- Embedding of `extend`: append `v` to the list with key `k`, resizing the
head/tail arrays when `k` is beyond their current length. -/
def extend (s : NestedForwardList V) (k : Int) (v : V) :
    Except NestedForwardListError Unit × NestedForwardList V :=
  match check_key k with
  | .error e => (.error e, s)
  | .ok _ =>
    let idx := k.toNat
    let s1 :=
      if s.head_.length ≤ idx then
        { s with head_ := resizeL s.head_ (idx + 1) null
                 tail_ := resizeL s.tail_ (idx + 1) null }
      else s
    if s1.head_.getD idx (-1) = null then
      (.ok (), insert_new_record s1 idx v)
    else
      let t := s1.tail_.getD idx (-1)
      if t = null then (.error .NullTail, s1)
      else
        let d : Int := (s1.data_.length : Int)
        (.ok (), { head_ := s1.head_
                   tail_ := s1.tail_.set idx d
                   next_ := (s1.next_.set t.toNat d) ++ [null]
                   data_ := s1.data_ ++ [v] })

/-- Embedding of `fetch`: bounds-checked read of a record value. -/
def fetch (s : NestedForwardList V) (at_ : Int) :
    Except NestedForwardListError V :=
  match check_key at_ with
  | .error e => .error e
  | .ok _ =>
    match s.data_.get? at_.toNat with
    | some v => .ok v
    | none => .error .InvalidIndex

/-- Embedding of `fetch_mut`: writing `v` through the mutable reference that
a successful `fetch_mut` hands out; a failed lookup changes nothing. -/
def fetch_mut (s : NestedForwardList V) (at_ : Int) (v : V) :
    Except NestedForwardListError Unit × NestedForwardList V :=
  match check_key at_ with
  | .error e => (.error e, s)
  | .ok _ =>
    if s.data_.length ≤ at_.toNat then (.error .InvalidIndex, s)
    else (.ok (), { s with data_ := s.data_.set at_.toNat v })

/-- Embedding of `head`: bounds-checked read of a list head index. -/
def head (s : NestedForwardList V) (at_ : Int) :
    Except NestedForwardListError Int :=
  match check_key at_ with
  | .error e => .error e
  | .ok _ =>
    match s.head_.get? at_.toNat with
    | some x => .ok x
    | none => .error .InvalidIndex

/-- Embedding of `tail`: bounds-checked read of a list tail index. -/
def tail (s : NestedForwardList V) (at_ : Int) :
    Except NestedForwardListError Int :=
  match check_key at_ with
  | .error e => .error e
  | .ok _ =>
    match s.tail_.get? at_.toNat with
    | some x => .ok x
    | none => .error .InvalidIndex

/-- Embedding of `next`: bounds-checked read of a record's next link. -/
def next (s : NestedForwardList V) (at_ : Int) :
    Except NestedForwardListError Int :=
  match check_key at_ with
  | .error e => .error e
  | .ok _ =>
    match s.next_.get? at_.toNat with
    | some x => .ok x
    | none => .error .InvalidIndex

/-- Embedding of `clear`: all four arrays are emptied. -/
def clear (_s : NestedForwardList V) : NestedForwardList V := ⟨[], [], [], []⟩

/-- Loop body of `for_each`, with explicit closure state and fuel; `none`
models divergence, which the Rust loop exhibits only on states that break
the structural invariant (a cyclic next chain). -/
def forEachFrom (s : NestedForwardList V) (f : V → σ → σ × Bool) :
    Nat → Int → σ → Option (Except NestedForwardListError σ)
  | 0, itr, acc => if itr = null then some (.ok acc) else none
  | fuel + 1, itr, acc =>
    if itr = null then some (.ok acc)
    else
      match fetch s itr with
      | .error e => some (.error e)
      | .ok v =>
        let r := f v acc
        if r.2 then
          match next s itr with
          | .error e => some (.error e)
          | .ok itr2 => forEachFrom s f fuel itr2 r.1
        else some (.ok r.1)

/-- Embedding of `for_each`: traverse the list with key `at_` from its head,
threading the closure state; the closure's boolean asks to continue. -/
def for_each (s : NestedForwardList V) (at_ : Int) (f : V → σ → σ × Bool)
    (init : σ) : Option (Except NestedForwardListError σ) :=
  match head s at_ with
  | .error e => some (.error e)
  | .ok itr => forEachFrom s f (s.data_.length + 1) itr init

/-- Embedding of `nullify_list`: set the key's head and tail to null without
touching the record storage. -/
def nullify_list (s : NestedForwardList V) (at_ : Int) :
    Except NestedForwardListError Unit × NestedForwardList V :=
  match check_key at_ with
  | .error e => (.error e, s)
  | .ok _ =>
    if s.head_.length ≤ at_.toNat then (.error .InvalidIndex, s)
    else if s.tail_.length ≤ at_.toNat then (.error .InvalidIndex, s)
    else (.ok (), { s with head_ := s.head_.set at_.toNat null
                           tail_ := s.tail_.set at_.toNat null })

/-- Embedding of `reset`: clear, then size the head/tail arrays to `newsize`
with every slot null (the source additionally overwrites each slot). -/
def reset (s : NestedForwardList V) (newsize : Nat) : NestedForwardList V :=
  let c := clear s
  let r := { c with head_ := resizeL c.head_ newsize null
                    tail_ := resizeL c.tail_ newsize null }
  { r with head_ := r.head_.map (fun _ => null)
           tail_ := r.tail_.map (fun _ => null) }

/-- Embedding of `head_itr`: the vector of list heads. -/
def head_itr (s : NestedForwardList V) : List Int := s.head_

/-- Embedding of `len`: the length of the vector of list heads. -/
def len (s : NestedForwardList V) : Nat := s.head_.length

/-- Embedding of `is_empty`. -/
def is_empty (s : NestedForwardList V) : Bool := s.head_.length == 0

/-- Values visited, in order, by `for_each` on key `at_` with an always-true
visitor that records every visited element. -/
def listOf (s : NestedForwardList V) (at_ : Int) :
    Option (Except NestedForwardListError (List V)) :=
  for_each s at_ (fun v l => (l ++ [v], true)) []

/-- Visited values of key `at_`, defaulting to `[]` when the traversal errors
or diverges. -/
def visitedD (s : NestedForwardList V) (at_ : Int) : List V :=
  match listOf s at_ with
  | some (.ok l) => l
  | _ => []

/-- States of a `NestedForwardList` reachable from `new()` by the public
mutating operations: `extend`, `reset`, `clear`, `nullify_list`, and writes
through `fetch_mut`. -/
inductive Reachable : NestedForwardList V → Prop
  | base : Reachable new
  | extend_step (s : NestedForwardList V) (k : Int) (v : V) :
      Reachable s → Reachable (extend s k v).2
  | reset_step (s : NestedForwardList V) (n : Nat) :
      Reachable s → Reachable (reset s n)
  | clear_step (s : NestedForwardList V) :
      Reachable s → Reachable (clear s)
  | nullify_step (s : NestedForwardList V) (k : Int) :
      Reachable s → Reachable (nullify_list s k).2
  | fetch_mut_step (s : NestedForwardList V) (at_ : Int) (v : V) :
      Reachable s → Reachable (fetch_mut s at_ v).2

end NestedForwardList

/-- Error type for table operations (tables.rs). -/
inductive TablesError
  | InvalidGenomeLength
  | InvalidNodeValue (found : Int)
  | InvalidPosition (found : Int)
  | InvalidLeftRight (found : Int × Int)
  | InvalidTime (found : Int)
  | InvalidDeme (found : Int)
deriving DecidableEq

/-- A node of a tree sequence: birth time and deme (tables.rs). -/
structure Node where
  time : Int
  deme : Int
deriving DecidableEq

/-- An edge: transmission of `[left, right)` from `parent` to `child`
(tables.rs). -/
structure Edge where
  left : Int
  right : Int
  parent : Int
  child : Int
deriving DecidableEq

/-- A site: position and ancestral state (tables.rs). -/
structure Site where
  position : Int
  ancestral_state : Int
deriving DecidableEq

/-- A mutation record (tables.rs). -/
structure Mutation where
  node : Int
  key : Nat
  site : Nat
  derived_state : Int
  neutral : Bool
deriving DecidableEq

/-- Embedding of `position_non_negative` (tables.rs). -/
def position_non_negative (x : Int) : Except TablesError Unit :=
  if x < 0 then .error (.InvalidPosition x) else .ok ()

/-- Embedding of `node_non_negative` (tables.rs). -/
def node_non_negative (x : Int) : Except TablesError Unit :=
  if x < 0 then .error (.InvalidNodeValue x) else .ok ()

/-- Embedding of `time_non_negative` (tables.rs). -/
def time_non_negative (x : Int) : Except TablesError Unit :=
  if x < 0 then .error (.InvalidTime x) else .ok ()

/-- Embedding of `deme_non_negative` (tables.rs). -/
def deme_non_negative (x : Int) : Except TablesError Unit :=
  if x < 0 then .error (.InvalidDeme x) else .ok ()

/-- Embedding of `edge_table_add_row`: validate `left < right` and
non-negativity of all four fields, then push the row; the post-insertion
table length is returned.  The paired table is the post-state. -/
def edge_table_add_row (edges : List Edge) (left right parent child : Int) :
    Except TablesError Nat × List Edge :=
  if right ≤ left then (.error (.InvalidLeftRight (left, right)), edges)
  else
    match position_non_negative left with
    | .error e => (.error e, edges)
    | .ok _ =>
      match position_non_negative right with
      | .error e => (.error e, edges)
      | .ok _ =>
        match node_non_negative parent with
        | .error e => (.error e, edges)
        | .ok _ =>
          match node_non_negative child with
          | .error e => (.error e, edges)
          | .ok _ =>
            let es := edges ++ [⟨left, right, parent, child⟩]
            (.ok es.length, es)

/-- Embedding of `node_table_add_row`: validate time and deme, push the row,
return the post-insertion length cast to the id type. -/
def node_table_add_row (nodes : List Node) (time : Int) (deme : Int) :
    Except TablesError Int × List Node :=
  match time_non_negative time with
  | .error e => (.error e, nodes)
  | .ok _ =>
    match deme_non_negative deme with
    | .error e => (.error e, nodes)
    | .ok _ =>
      let ns := nodes ++ [⟨time, deme⟩]
      (.ok (ns.length : Int), ns)

/-- Embedding of `site_table_add_row`. -/
def site_table_add_row (sites : List Site) (position : Int)
    (ancestral_state : Int) : Except TablesError Nat × List Site :=
  match position_non_negative position with
  | .error e => (.error e, sites)
  | .ok _ =>
    let ss := sites ++ [⟨position, ancestral_state⟩]
    (.ok ss.length, ss)

/-- Embedding of `mutation_table_add_row`. -/
def mutation_table_add_row (mutations : List Mutation) (node : Int)
    (key : Nat) (site : Nat) (derived_state : Int) (neutral : Bool) :
    Except TablesError Nat × List Mutation :=
  match node_non_negative node with
  | .error e => (.error e, mutations)
  | .ok _ =>
    let ms := mutations ++ [⟨node, key, site, derived_state, neutral⟩]
    (.ok ms.length, ms)

/-- Comparator of `sort_edge_table` (tables.rs), transcribed exactly: note
that the source computes `cindex` from `a.parent` as well, so `ta` and `tb`
are both the time of `a`'s parent. -/
def sort_edge_table_cmp (nodes : List Node) (a b : Edge) : Ordering :=
  let ta := (nodes.getD a.parent.toNat ⟨0, 0⟩).time
  let tb := (nodes.getD a.parent.toNat ⟨0, 0⟩).time
  if ta = tb ∧ a.parent = b.parent then
    if a.child = b.child then icmp a.left b.left
    else icmp a.parent b.parent
  else (icmp ta tb).swap

/-- Embedding of `sort_edge_table`: stable sort of the edge table by the
source's comparator. -/
def sort_edge_table (nodes : List Node) (edges : List Edge) : List Edge :=
  sortCmp (sort_edge_table_cmp nodes) edges

/-- Embedding of `sort_mutation_table`: stable sort by site position,
descending. -/
def sort_mutation_table (sites : List Site) (mutations : List Mutation) :
    List Mutation :=
  sortCmp
    (fun a b =>
      (icmp (sites.getD a.site ⟨0, 0⟩).position
            (sites.getD b.site ⟨0, 0⟩).position).swap)
    mutations

/-- Embedding of `TableCollection` (tables.rs). -/
structure TableCollection where
  length_ : Int
  nodes_ : List Node
  edges_ : List Edge
  sites_ : List Site
  mutations_ : List Mutation
deriving DecidableEq

namespace TableCollection

/-- Embedding of `TableCollection::new`: rejects genome length below 1. -/
def new (genome_length : Int) : Except TablesError TableCollection :=
  if genome_length < 1 then .error .InvalidGenomeLength
  else .ok ⟨genome_length, [], [], [], []⟩

/-- Embedding of `TableCollection::add_node`. -/
def add_node (tc : TableCollection) (time : Int) (deme : Int) :
    Except TablesError Int × TableCollection :=
  let r := node_table_add_row tc.nodes_ time deme
  (r.1, { tc with nodes_ := r.2 })

/-- Embedding of `TableCollection::add_edge`. -/
def add_edge (tc : TableCollection) (left right parent child : Int) :
    Except TablesError Nat × TableCollection :=
  let r := edge_table_add_row tc.edges_ left right parent child
  (r.1, { tc with edges_ := r.2 })

/-- Embedding of `TableCollection::add_site`: positions at or beyond the
genome length are rejected before the row validation. -/
def add_site (tc : TableCollection) (position : Int)
    (ancestral_state : Int) : Except TablesError Nat × TableCollection :=
  if tc.length_ ≤ position then (.error (.InvalidPosition position), tc)
  else
    let r := site_table_add_row tc.sites_ position ancestral_state
    (r.1, { tc with sites_ := r.2 })

/-- Embedding of `TableCollection::add_mutation`. -/
def add_mutation (tc : TableCollection) (node : Int) (key : Nat)
    (site : Nat) (derived_state : Int) (neutral : Bool) :
    Except TablesError Nat × TableCollection :=
  let r := mutation_table_add_row tc.mutations_ node key site derived_state
    neutral
  (r.1, { tc with mutations_ := r.2 })

/-- Embedding of `get_length`. -/
def get_length (tc : TableCollection) : Int := tc.length_

/-- Embedding of `num_edges`. -/
def num_edges (tc : TableCollection) : Nat := tc.edges_.length

/-- Embedding of `num_nodes` (used by the driver). -/
def num_nodes (tc : TableCollection) : Nat := tc.nodes_.length

/-- Embedding of the driver's `tables.node(id)` lookup. -/
def node (tc : TableCollection) (id : Int) : Node :=
  tc.nodes_.getD id.toNat ⟨0, 0⟩

/-- Embedding of `sort_tables_for_simplification`: sort the edge table and
the mutation table in place. -/
def sort_tables_for_simplification (tc : TableCollection) :
    TableCollection :=
  { tc with edges_ := sort_edge_table tc.nodes_ tc.edges_
            mutations_ := sort_mutation_table tc.sites_ tc.mutations_ }

end TableCollection

/-- A segment: half-open genomic interval plus an associated node id
(segment.rs). -/
structure Segment where
  left : Int
  right : Int
  node : Int
deriving DecidableEq

/-- Embedding of `Segment::new`. -/
def Segment.new (left right node : Int) : Segment := ⟨left, right, node⟩

/-- `EdgeBuffer` is `NestedForwardList<Segment>` keyed by parent node id. -/
abbrev EdgeBuffer := NestedForwardList Segment

/-- The crate-level error enum as seen by the simplification driver.
`Diverged` is a model-only constructor standing for non-termination of a
Rust loop (fuel exhaustion); the Rust code never returns it as a value. -/
inductive ForrusttsError
  | ListError (e : NestedForwardListError)
  | TablesError (e : TablesError)
  | SimplificationError (value : String)
  | Diverged
deriving DecidableEq

/-- Embedding of the driver-private `ParentLocation`
(simplify_from_edge_buffer.rs): a founder parent together with the
half-open index run `[start, stop)` of its edges in the pre-existing edge
table, or the `usize::MAX` sentinel when it has none. -/
structure ParentLocation where
  parent : Int
  start : Nat
  stop : Nat
deriving DecidableEq

/-- Embedding of `ParentLocation::new`. -/
def ParentLocation.new (parent : Int) (start stop : Nat) : ParentLocation :=
  ⟨parent, start, stop⟩

/-- Modelled from the spec: `SegmentOverlapper`'s staging queue.  The
sweep/merge source (simplification_logic) is not part of this repository's
sources; per the spec, `enqueue` stages one interval with its mapped node,
`clear_queue` resets the staging area, and `finalize_queue` sorts the staged
intervals by left coordinate with a stable sort (the genome-length bound
affects only the sweep output, which is external to this model). -/
structure SegmentOverlapper where
  queue : List Segment
deriving DecidableEq

/-- Modelled from the spec: `enqueue(left, right, mapped_node)` stages one
interval for the parent under construction. -/
def SegmentOverlapper.enqueue (o : SegmentOverlapper)
    (left right node : Int) : SegmentOverlapper :=
  { queue := o.queue ++ [⟨left, right, node⟩] }

/-- Modelled from the spec: `clear_queue` resets the staging area. -/
def SegmentOverlapper.clear_queue (_o : SegmentOverlapper) :
    SegmentOverlapper := { queue := [] }

/-- Modelled from the spec: `finalize_queue` sorts the staged intervals by
left coordinate (stable). -/
def SegmentOverlapper.finalize_queue (o : SegmentOverlapper)
    (_genome_length : Int) : SegmentOverlapper :=
  { queue := sortCmp (fun a b => icmp a.left b.left) o.queue }

/-- The caller-owned scratch state (`SimplificationBuffers`): ancestry
tracker, overlapper, and the node/edge tables under construction. -/
structure SimplificationBuffers where
  ancestry : NestedForwardList Segment
  overlapper : SegmentOverlapper
  new_nodes : List Node
  new_edges : List Edge
deriving DecidableEq

/-- The sample descriptor; only the founder-node list is consumed by the
modelled driver code. -/
structure SamplesInfo where
  edge_buffer_founder_nodes : List Int
deriving DecidableEq

/-- The output sink, holding the old-id to new-id map. -/
structure SimplificationOutput where
  idmap : List Int
deriving DecidableEq

/-- Embedding of `queue_children` (simplify_from_edge_buffer.rs): for every
segment in the child's ancestry list overlapping the query interval, enqueue
the clipped interval with the segment's mapped node. -/
def queue_children (child : Int) (left right : Int)
    (ancestry : NestedForwardList Segment) (overlapper : SegmentOverlapper) :
    Option (Except NestedForwardListError SegmentOverlapper) :=
  NestedForwardList.for_each ancestry child
    (fun seg ovl =>
      ((if left < seg.right ∧ seg.left < right then
          ovl.enqueue (max seg.left left) (min seg.right right) seg.node
        else ovl), true))
    overlapper

/-- Embedding of `process_births_from_buffer`: queue every buffered child
segment of `head`.  The source unwraps the inner `queue_children` result
inside the closure (a panic on error); the model carries that failure out as
an error, which is equally fatal to the pass. -/
def process_births_from_buffer (head : Int) (edge_buffer : EdgeBuffer)
    (state : SimplificationBuffers) :
    Except ForrusttsError SimplificationBuffers :=
  let run := NestedForwardList.for_each edge_buffer head
    (fun seg (acc : Except ForrusttsError SegmentOverlapper) =>
      match acc with
      | .error e => (.error e, false)
      | .ok ovl =>
        match queue_children seg.node seg.left seg.right state.ancestry ovl with
        | some (.ok ovl2) => (.ok ovl2, true)
        | some (.error e) => (.error (.ListError e), false)
        | none => (.error .Diverged, false))
    (.ok state.overlapper)
  match run with
  | none => .error .Diverged
  | some (.error e) => .error (.ListError e)
  | some (.ok (.error e)) => .error e
  | some (.ok (.ok ovl)) => .ok { state with overlapper := ovl }

/-- First phase of `find_pre_existing_edges`: the founders that have buffered
edges (a non-null buffer head), in founder-list order. -/
def collectAlive (edge_buffer : EdgeBuffer) :
    List Int → Except ForrusttsError (List Int)
  | [] => .ok []
  | a :: rest =>
    match NestedForwardList.head edge_buffer a with
    | .error e => .error (.ListError e)
    | .ok h =>
      match collectAlive edge_buffer rest with
      | .error e => .error e
      | .ok r => .ok (if h ≠ NestedForwardList.null then a :: r else r)

/-- Second phase of `find_pre_existing_edges`: one pass over the edge table
recording, per parent, the first index and one past the last index of its
run; slots start at the `usize::MAX` sentinel. -/
def scanEdges (numNodes : Nat) (edges : List Edge) : List Nat × List Nat :=
  edges.enum.foldl
    (fun p ie =>
      let i := ie.1
      let e := ie.2
      if p.1.getD e.parent.toNat usizeMax = usizeMax then
        (p.1.set e.parent.toNat i, p.2.set e.parent.toNat (i + 1))
      else (p.1, p.2.set e.parent.toNat (i + 1)))
    (List.replicate numNodes usizeMax, List.replicate numNodes usizeMax)

/-- The run list of `find_pre_existing_edges` before sorting: one
`ParentLocation` per alive founder, in founder order. -/
def buildRuns (tables : TableCollection) (alive : List Int) :
    List ParentLocation :=
  let se := scanEdges tables.num_nodes tables.edges_
  alive.map (fun a =>
    ParentLocation.new a (se.1.getD a.toNat usizeMax) (se.2.getD a.toNat usizeMax))

/-- Comparator of the `rv.sort_by` call in `find_pre_existing_edges`: parent
time descending, ties by run start ascending, then by parent id ascending. -/
def find_pre_existing_cmp (nodes : List Node) (a b : ParentLocation) :
    Ordering :=
  let ta := (nodes.getD a.parent.toNat ⟨0, 0⟩).time
  let tb := (nodes.getD b.parent.toNat ⟨0, 0⟩).time
  if ta = tb then
    if a.start = b.start then icmp a.parent b.parent
    else ncmp a.start b.start
  else (icmp ta tb).swap

/-- The consistency-check loop of `find_pre_existing_edges`: adjacent run
times must be non-increasing. -/
def existingEdgesTimeCheck (nodes : List Node) :
    List ParentLocation → Except ForrusttsError Unit
  | a :: b :: rest =>
    if (nodes.getD a.parent.toNat ⟨0, 0⟩).time
        < (nodes.getD b.parent.toNat ⟨0, 0⟩).time then
      .error (.SimplificationError "existing edges not properly sorted by time")
    else existingEdgesTimeCheck nodes (b :: rest)
  | _ => .ok ()

/-- Embedding of `find_pre_existing_edges` (simplify_from_edge_buffer.rs):
collect alive founders, locate their edge-table runs, sort the runs by the
time-descending comparator, then run the consistency check. -/
def find_pre_existing_edges (tables : TableCollection)
    (edge_buffer_founder_nodes : List Int) (edge_buffer : EdgeBuffer) :
    Except ForrusttsError (List ParentLocation) :=
  match collectAlive edge_buffer edge_buffer_founder_nodes with
  | .error e => .error e
  | .ok alive =>
    if alive.isEmpty then .ok []
    else
      let rv := sortCmp (find_pre_existing_cmp tables.nodes_)
        (buildRuns tables alive)
      match existingEdgesTimeCheck tables.nodes_ rv with
      | .error e => .error e
      | .ok _ => .ok rv

/-- Type of the external `setup_simplification` (simplification_common, not
among this repository's source files): quantified over in the driver
theorems. -/
abbrev SetupFn := SamplesInfo → TableCollection → Nat →
  SimplificationBuffers → SimplificationOutput →
  Except ForrusttsError (SimplificationBuffers × SimplificationOutput)

/-- Type of the external `merge_ancestors` (simplification_logic, not among
this repository's source files): consumes the node table, genome length and
parent id, and may rewrite the scratch state and idmap. -/
abbrev MergeFn := List Node → Int → Int → SimplificationBuffers → List Int →
  Except ForrusttsError (SimplificationBuffers × List Int)

/-- Type of the external `process_parent` (simplification_common, not among
this repository's source files): processes one parent's run starting at the
given edge index and returns the next edge index. -/
abbrev ProcessParentFn := Int → Nat × Nat → TableCollection →
  SimplificationBuffers → SimplificationOutput →
  Except ForrusttsError (Nat × SimplificationBuffers × SimplificationOutput)

/-- The birth time of the parent of edge `i` in the pre-existing table. -/
def edgeParentTime (tables : TableCollection) (i : Nat) : Int :=
  (tables.nodes_.getD (tables.edges_.getD i ⟨0, 0, 0, 0⟩).parent.toNat
    ⟨0, 0⟩).time

/-- The birth time of node `p`. -/
def parentTime (tables : TableCollection) (p : Int) : Int :=
  (tables.nodes_.getD p.toNat ⟨0, 0⟩).time

/-- Rust `i64::MIN`, the driver's initial `max_time`. -/
def timeMin : Int := -(2 ^ 63)

/-- Step 1 of the driver: drain purely-new parents from the buffer's head
slots in descending id order, stopping at the first parent whose time does
not exceed `max_time`. -/
def drainNewParents (merge : MergeFn) (tables : TableCollection)
    (edge_buffer : EdgeBuffer) (max_time : Int) :
    List Int → SimplificationBuffers → SimplificationOutput →
    Except ForrusttsError (SimplificationBuffers × SimplificationOutput)
  | [], state, output => .ok (state, output)
  | hd :: rest, state, output =>
    let ptime := (tables.node hd).time
    if max_time < ptime then
      let state1 := { state with overlapper := state.overlapper.clear_queue }
      match process_births_from_buffer hd edge_buffer state1 with
      | .error e => .error e
      | .ok state2 =>
        let state3 := { state2 with
          overlapper := state2.overlapper.finalize_queue tables.get_length }
        match merge tables.nodes_ tables.get_length hd state3 output.idmap with
        | .error e => .error e
        | .ok (state4, idmap) =>
          drainNewParents merge tables edge_buffer max_time rest state4
            { output with idmap := idmap }
    else .ok (state, output)

/-- A `while … { edge_i = process_parent(…) }` loop of the driver, with fuel
standing in for termination (the external `process_parent` chooses the next
index, so the Rust loop's termination is not structural). -/
def whileProcessParents (pp : ProcessParentFn) (tables : TableCollection)
    (cond : Nat → Bool) :
    Nat → Nat → SimplificationBuffers → SimplificationOutput →
    Except ForrusttsError (Nat × SimplificationBuffers × SimplificationOutput)
  | 0, edge_i, state, output =>
    if cond edge_i then .error .Diverged else .ok (edge_i, state, output)
  | fuel + 1, edge_i, state, output =>
    if cond edge_i then
      match pp (tables.edges_.getD edge_i ⟨0, 0, 0, 0⟩).parent
          (edge_i, tables.num_edges) tables state output with
      | .error e => .error e
      | .ok (e2, st2, out2) =>
        whileProcessParents pp tables cond fuel e2 st2 out2
    else .ok (edge_i, state, output)

/-- The inner `while edge_i < ex.stop` loop of the driver: queue the
pre-existing children of the split parent, checking the run's parent. -/
def queueRunChildren (tables : TableCollection) (exl : ParentLocation) :
    Nat → Nat → SimplificationBuffers →
    Except ForrusttsError (Nat × SimplificationBuffers)
  | 0, edge_i, state =>
    if edge_i < exl.stop then .error .Diverged else .ok (edge_i, state)
  | fuel + 1, edge_i, state =>
    if edge_i < exl.stop then
      let e := tables.edges_.getD edge_i ⟨0, 0, 0, 0⟩
      if e.parent ≠ exl.parent then
        .error (.SimplificationError "Unexpected parent node")
      else
        match queue_children e.child e.left e.right state.ancestry
            state.overlapper with
        | some (.ok ovl) =>
          queueRunChildren tables exl fuel (edge_i + 1)
            { state with overlapper := ovl }
        | some (.error er) => .error (.ListError er)
        | none => .error .Diverged
    else .ok (edge_i, state)

/-- Steps 3 and 4 of the driver, per split parent: process ordinary parents
up to the split parent's run, queue the run's children together with the
buffered births, then merge once. -/
def processExisting (pp : ProcessParentFn) (merge : MergeFn)
    (tables : TableCollection) (edge_buffer : EdgeBuffer) (fuel : Nat) :
    List ParentLocation → Nat → SimplificationBuffers → SimplificationOutput →
    Except ForrusttsError (Nat × SimplificationBuffers × SimplificationOutput)
  | [], edge_i, state, output => .ok (edge_i, state, output)
  | exl :: rest, edge_i, state, output =>
    match whileProcessParents pp tables
        (fun i => decide (i < tables.num_edges) &&
          decide (parentTime tables exl.parent < edgeParentTime tables i))
        fuel edge_i state output with
    | .error e => .error e
    | .ok (e1, st1, out1) =>
      match
        (if exl.start ≠ usizeMax then
          whileProcessParents pp tables
            (fun i => decide (i < exl.start) &&
              decide (parentTime tables exl.parent ≤ edgeParentTime tables i))
            fuel e1 st1 out1
        else .ok (e1, st1, out1) :
          Except ForrusttsError
            (Nat × SimplificationBuffers × SimplificationOutput)) with
      | .error e => .error e
      | .ok (e2, st2, out2) =>
        let st3 := { st2 with overlapper := st2.overlapper.clear_queue }
        match
          (if exl.start ≠ usizeMax then
            match queueRunChildren tables exl fuel e2 st3 with
            | .error e => .error e
            | .ok (e3, st4) =>
              if e3 < tables.num_edges ∧
                  (tables.edges_.getD e3 ⟨0, 0, 0, 0⟩).parent = exl.parent then
                .error (.SimplificationError
                  "error traversing pre-existing edges for parent")
              else .ok (e3, st4)
          else .ok (e2, st3) :
            Except ForrusttsError (Nat × SimplificationBuffers)) with
        | .error e => .error e
        | .ok (e4, st5) =>
          match process_births_from_buffer exl.parent edge_buffer st5 with
          | .error e => .error e
          | .ok st6 =>
            let st7 := { st6 with
              overlapper := st6.overlapper.finalize_queue tables.get_length }
            match merge tables.nodes_ tables.get_length exl.parent st7
                out2.idmap with
            | .error e => .error e
            | .ok (st8, idmap) =>
              processExisting pp merge tables edge_buffer fuel rest e4 st8
                { out2 with idmap := idmap }

/-- All fallible phases of `simplify_from_edge_buffer` before the commit:
setup, draining purely-new parents, locating split parents, the merged pass,
and the remainder loop.  The table collection and buffer are read-only
throughout these phases. -/
def simplifyPhases (setup : SetupFn) (merge : MergeFn)
    (pp : ProcessParentFn) (fuel : Nat) (samples : SamplesInfo) (flags : Nat)
    (state : SimplificationBuffers) (edge_buffer : EdgeBuffer)
    (tables : TableCollection) (output : SimplificationOutput) :
    Except ForrusttsError (SimplificationBuffers × SimplificationOutput) :=
  match setup samples tables flags state output with
  | .error e => .error e
  | .ok (st0, out0) =>
    let max_time := samples.edge_buffer_founder_nodes.foldl
      (fun mt n => max mt (tables.node n).time) timeMin
    match drainNewParents merge tables edge_buffer max_time
        ((List.range edge_buffer.len).reverse.map Int.ofNat) st0 out0 with
    | .error e => .error e
    | .ok (st1, out1) =>
      match find_pre_existing_edges tables samples.edge_buffer_founder_nodes
          edge_buffer with
      | .error e => .error e
      | .ok existing_edges =>
        match processExisting pp merge tables edge_buffer fuel
            existing_edges 0 st1 out1 with
        | .error e => .error e
        | .ok (edge_i, st2, out2) =>
          match whileProcessParents pp tables
              (fun i => decide (i < tables.num_edges)) fuel edge_i st2
              out2 with
          | .error e => .error e
          | .ok (_, st3, out3) => .ok (st3, out3)

/-- Embedding of `simplify_from_edge_buffer` (simplify_from_edge_buffer.rs),
parameterised over the three external collaborators: run the phases, then
commit by swapping the newly built node/edge tables into the collection and
resetting the edge buffer to the new node count. -/
def simplify_from_edge_buffer (setup : SetupFn) (merge : MergeFn)
    (pp : ProcessParentFn) (fuel : Nat) (samples : SamplesInfo) (flags : Nat)
    (state : SimplificationBuffers) (edge_buffer : EdgeBuffer)
    (tables : TableCollection) (output : SimplificationOutput) :
    Except ForrusttsError
      (SimplificationBuffers × EdgeBuffer × TableCollection ×
        SimplificationOutput) :=
  match simplifyPhases setup merge pp fuel samples flags state edge_buffer
      tables output with
  | .error e => .error e
  | .ok (st, out) =>
    let tables2 := { tables with edges_ := st.new_edges
                                 nodes_ := st.new_nodes }
    let st2 := { st with new_edges := tables.edges_
                         new_nodes := tables.nodes_ }
    let buffer2 := edge_buffer.reset tables2.num_nodes
    .ok (st2, buffer2, tables2, out)

namespace NestedForwardList

/-- The full record-index chain obtained by following `nx` links from a
start index until the null sentinel, each visited index being inside the
record storage of size `dlen`. -/
inductive ChainFrom (nx : List Int) (dlen : Nat) : Int → List Nat → Prop
  | nil : ChainFrom nx dlen (-1) []
  | cons {a : Int} {rs : List Nat} (h0 : 0 ≤ a) (h1 : a.toNat < dlen)
      (h2 : ChainFrom nx dlen (nx.getD a.toNat (-1)) rs) :
      ChainFrom nx dlen a (a.toNat :: rs)

/-- Structural invariant of `NestedForwardList` maintained by the public
operations: head and tail arrays have equal length, next links parallel the
record storage, next links strictly increase (records link only to records
appended later), every non-empty list's head starts a chain ending exactly at
its tail, and distinct non-empty lists have distinct tails. -/
structure Inv (s : NestedForwardList V) : Prop where
  ht : s.head_.length = s.tail_.length
  nd : s.next_.length = s.data_.length
  nxinc : ∀ r : Nat, s.next_.getD r (-1) = -1 ∨
      ((r : Int) < s.next_.getD r (-1) ∧
        (s.next_.getD r (-1)).toNat < s.next_.length)
  lists : ∀ k : Nat, s.head_.getD k (-1) ≠ -1 →
      ∃ rs e, ChainFrom s.next_ s.data_.length (s.head_.getD k (-1)) rs ∧
        rs.getLast? = some e ∧ s.tail_.getD k (-1) = (e : Int)
  tldis : ∀ k k' : Nat, k ≠ k' → s.head_.getD k (-1) ≠ -1 →
      s.head_.getD k' (-1) ≠ -1 →
      s.tail_.getD k (-1) ≠ s.tail_.getD k' (-1)

/-- Values stored at a list of record indices. -/
def valsOf (s : NestedForwardList V) (rs : List Nat) : List V :=
  rs.filterMap (fun r => s.data_.get? r)

/-- Apply a sequence of `extend` operations in order, keeping the post-state
of each (an erroring `extend` leaves the state unchanged, which the pair
model already reflects). -/
def applyExtends (s : NestedForwardList V) (ops : List (Int × V)) :
    NestedForwardList V :=
  ops.foldl (fun t p => (extend t p.1 p.2).2) s

end NestedForwardList

/-- Formalisation of the edge order stated by the spec, for comparison with
`sort_edge_table`: parent birth time descending, ties broken by parent id,
then by left coordinate. -/
def specEdgeLE (nodes : List Node) (a b : Edge) : Bool :=
  decide ((nodes.getD b.parent.toNat ⟨0, 0⟩).time
    < (nodes.getD a.parent.toNat ⟨0, 0⟩).time) ||
  (decide ((nodes.getD a.parent.toNat ⟨0, 0⟩).time
      = (nodes.getD b.parent.toNat ⟨0, 0⟩).time) &&
    (decide (a.parent < b.parent) ||
      (decide (a.parent = b.parent) && decide (a.left ≤ b.left))))

/-- Whether an edge table is sorted in the order the spec states for
`sort_tables_for_simplification`. -/
def edgesSortedBySpec (nodes : List Node) : List Edge → Bool
  | a :: b :: rest => specEdgeLE nodes a b && edgesSortedBySpec nodes (b :: rest)
  | _ => true

/-- Every edge references node indices inside the node table. -/
def edgesValid (tc : TableCollection) : Bool :=
  tc.edges_.all (fun e =>
    decide (0 ≤ e.parent) && decide (e.parent.toNat < tc.nodes_.length) &&
    decide (0 ≤ e.child) && decide (e.child.toNat < tc.nodes_.length))

/-- Concrete table collection exercising the edge sort: two valid nodes with
distinct birth times, one edge from each parent, the older parent's edge
placed first. -/
def sortExampleTC : TableCollection :=
  { length_ := 10
    nodes_ := [⟨0, 0⟩, ⟨1, 0⟩]
    edges_ := [⟨0, 1, 0, 1⟩, ⟨0, 1, 1, 0⟩]
    sites_ := []
    mutations_ := [] }

/-- Concrete table collection for `find_pre_existing_edges`: founder 0 is
older (time 5) than founder 1 (time 7), and founder 0's edge run precedes
founder 1's run in the table, so the runs in discovered order carry a
strictly increasing time pair. -/
def preExistingExampleTC : TableCollection :=
  { length_ := 10
    nodes_ := [⟨5, 0⟩, ⟨7, 0⟩]
    edges_ := [⟨0, 10, 0, 1⟩, ⟨0, 10, 1, 0⟩]
    sites_ := []
    mutations_ := [] }

/-- Concrete edge buffer in which both founders 0 and 1 have buffered
births. -/
def preExistingExampleBuffer : EdgeBuffer :=
  { head_ := [0, 1], tail_ := [0, 1], next_ := [-1, -1]
    data_ := [⟨0, 1, 2⟩, ⟨0, 1, 3⟩] }

/-- The founder list for the `find_pre_existing_edges` example. -/
def preExistingExampleFounders : List Int := [0, 1]

theorem get?_set_self {α : Type} (l : List α) (i : Nat) (x : α)
    (h : i < l.length) : (l.set i x).get? i = some x := by
  induction l generalizing i with
  | nil => simp at h
  | cons a t ih =>
    cases i with
    | zero => rfl
    | succ j => simpa using ih j (by simpa using h)

theorem get?_set_ne {α : Type} (l : List α) (i j : Nat) (x : α)
    (h : i ≠ j) : (l.set i x).get? j = l.get? j := by
  induction l generalizing i j with
  | nil => simp
  | cons a t ih =>
    cases i with
    | zero =>
      cases j with
      | zero => exact absurd rfl h
      | succ j2 => rfl
    | succ i2 =>
      cases j with
      | zero => rfl
      | succ j2 => simpa using ih i2 j2 (by omega)

theorem getD_eq_get? {α : Type} (l : List α) (i : Nat) (d : α) :
    l.getD i d = (l.get? i).getD d := by
  induction l generalizing i with
  | nil => simp [List.getD]
  | cons a t ih =>
    cases i with
    | zero => rfl
    | succ j => simpa [List.getD] using ih j

theorem getD_set_self {α : Type} (l : List α) (i : Nat) (x d : α)
    (h : i < l.length) : (l.set i x).getD i d = x := by
  rw [getD_eq_get?, get?_set_self l i x h]; rfl

theorem getD_set_ne {α : Type} (l : List α) (i j : Nat) (x d : α)
    (h : i ≠ j) : (l.set i x).getD j d = l.getD j d := by
  rw [getD_eq_get?, get?_set_ne l i j x h, getD_eq_get?]

theorem get?_append_lt {α : Type} (l l2 : List α) (i : Nat)
    (h : i < l.length) : (l ++ l2).get? i = l.get? i := by
  induction l generalizing i with
  | nil => simp at h
  | cons a t ih =>
    cases i with
    | zero => rfl
    | succ j => simpa using ih j (by simpa using h)

theorem getD_append_lt {α : Type} (l l2 : List α) (i : Nat) (d : α)
    (h : i < l.length) : (l ++ l2).getD i d = l.getD i d := by
  rw [getD_eq_get?, get?_append_lt l l2 i h, getD_eq_get?]

theorem getD_of_length_le {α : Type} (l : List α) (i : Nat) (d : α)
    (h : l.length ≤ i) : l.getD i d = d := by
  induction l generalizing i with
  | nil => simp [List.getD]
  | cons a t ih =>
    cases i with
    | zero => simp at h
    | succ j => simpa [List.getD] using ih j (by simpa using h)

theorem getD_replicate {α : Type} (n i : Nat) (v d : α) :
    (List.replicate n v).getD i d = if i < n then v else d := by
  induction n generalizing i with
  | zero => simp [List.getD]
  | succ m ih =>
    cases i with
    | zero => simp [List.replicate, List.getD]
    | succ j => simpa [List.replicate, List.getD, Nat.succ_lt_succ_iff] using ih j

theorem length_resizeL {α : Type} (l : List α) (n : Nat) (v : α) :
    (resizeL l n v).length = n := by
  unfold resizeL
  split_ifs with h
  · simp [List.length_take]; omega
  · simp [List.length_append, List.length_replicate]; omega

theorem getD_resizeL_grow {α : Type} (l : List α) (n i : Nat) (v : α)
    (h : l.length ≤ n) : (resizeL l n v).getD i v = l.getD i v := by
  unfold resizeL
  split_ifs with h1
  · have : n = l.length := Nat.le_antisymm h1 h
    subst this
    simp [List.take_length]
  · by_cases h2 : i < l.length
    · rw [getD_append_lt l _ i v h2]
    · rw [getD_of_length_le l i v (by omega)]
      by_cases h3 : i < (l ++ List.replicate (n - l.length) v).length
      · rw [getD_eq_get?]
        have h4 : (l ++ List.replicate (n - l.length) v).get? i
            = (List.replicate (n - l.length) v).get? (i - l.length) := by
          rw [List.get?_append_right (by omega)]
        rw [h4]
        cases h6 : (List.replicate (n - l.length) v).get? (i - l.length) with
        | none => rfl
        | some a =>
          have : a = v := List.eq_of_mem_replicate (List.get?_mem h6)
          simp [this]
      · rw [getD_of_length_le _ i v (by omega)]

theorem icmp_ne_lt_iff (a b : Int) : icmp a b ≠ .lt ↔ b ≤ a := by
  unfold icmp
  split_ifs with h1 h2 <;> simp <;> omega

theorem icmp_ne_gt_iff (a b : Int) : icmp a b ≠ .gt ↔ a ≤ b := by
  unfold icmp
  split_ifs with h1 h2 <;> simp <;> omega

theorem ncmp_ne_lt_iff (a b : Nat) : ncmp a b ≠ .lt ↔ b ≤ a := by
  unfold ncmp
  split_ifs with h1 h2 <;> simp <;> omega

theorem ncmp_ne_gt_iff (a b : Nat) : ncmp a b ≠ .gt ↔ a ≤ b := by
  unfold ncmp
  split_ifs with h1 h2 <;> simp <;> omega

theorem swap_ne_gt_iff (o : Ordering) : o.swap ≠ .gt ↔ o ≠ .lt := by
  cases o <;> simp [Ordering.swap]

theorem swap_ne_lt_iff (o : Ordering) : o.swap ≠ .lt ↔ o ≠ .gt := by
  cases o <;> simp [Ordering.swap]

theorem insertCmp_head? {α : Type} (cmp : α → α → Ordering) (x : α)
    (l : List α) :
    (insertCmp cmp x l).head? = some x ∨ (insertCmp cmp x l).head? = l.head? := by
  cases l with
  | nil => left; rfl
  | cons y ys =>
    unfold insertCmp
    split_ifs with h
    · left; rfl
    · right; rfl

theorem chain'_insertCmp {α : Type} (cmp : α → α → Ordering)
    (hP : ∀ a b, cmp a b ≠ .lt → cmp b a ≠ .gt) (x : α) (l : List α)
    (h : List.Chain' (fun a b => cmp a b ≠ .gt) l) :
    List.Chain' (fun a b => cmp a b ≠ .gt) (insertCmp cmp x l) := by
  induction l with
  | nil => simp [insertCmp]
  | cons y ys ih =>
    unfold insertCmp
    split_ifs with hxy
    · refine List.chain'_cons'.2 ⟨?_, h⟩
      intro b hb
      simp at hb
      subst hb
      simp [hxy]
    · have hy : List.Chain' (fun a b => cmp a b ≠ .gt) ys := h.tail
      refine List.chain'_cons'.2 ⟨?_, ih hy⟩
      intro b hb
      rcases insertCmp_head? cmp x ys with h1 | h1
      · rw [h1] at hb
        simp at hb
        subst hb
        exact hP x y hxy
      · rw [h1] at hb
        cases ys with
        | nil => simp at hb
        | cons z zs =>
          simp at hb
          subst hb
          exact (List.chain'_cons.1 h).1

theorem chain'_sortCmp {α : Type} (cmp : α → α → Ordering)
    (hP : ∀ a b, cmp a b ≠ .lt → cmp b a ≠ .gt) (l : List α) :
    List.Chain' (fun a b => cmp a b ≠ .gt) (sortCmp cmp l) := by
  suffices hgen : ∀ acc, List.Chain' (fun a b => cmp a b ≠ .gt) acc →
      List.Chain' (fun a b => cmp a b ≠ .gt)
        (l.foldl (fun acc x => insertCmp cmp x acc) acc) by
    exact hgen [] (by simp)
  induction l with
  | nil => intro acc hacc; exact hacc
  | cons y ys ih =>
    intro acc hacc
    exact ih (insertCmp cmp y acc) (chain'_insertCmp cmp hP y acc hacc)

theorem find_pre_existing_cmp_flip (nodes : List Node) :
    ∀ a b, find_pre_existing_cmp nodes a b ≠ .lt →
      find_pre_existing_cmp nodes b a ≠ .gt := by
  intro a b hab
  simp only [find_pre_existing_cmp] at hab ⊢
  by_cases ht : (nodes.getD a.parent.toNat ⟨0, 0⟩).time
      = (nodes.getD b.parent.toNat ⟨0, 0⟩).time
  · rw [if_pos ht] at hab
    rw [if_pos ht.symm]
    by_cases hs : a.start = b.start
    · rw [if_pos hs] at hab
      rw [if_pos hs.symm]
      rw [icmp_ne_lt_iff] at hab
      rw [icmp_ne_gt_iff]
      exact hab
    · rw [if_neg hs] at hab
      rw [if_neg (fun h => hs h.symm)]
      rw [ncmp_ne_lt_iff] at hab
      rw [ncmp_ne_gt_iff]
      exact hab
  · rw [if_neg ht] at hab
    rw [if_neg (fun h => ht h.symm)]
    rw [swap_ne_lt_iff, icmp_ne_gt_iff] at hab
    rw [swap_ne_gt_iff, icmp_ne_lt_iff]
    exact hab

theorem find_pre_existing_cmp_time_ge (nodes : List Node)
    (a b : ParentLocation) (h : find_pre_existing_cmp nodes a b ≠ .gt) :
    ¬ ((nodes.getD a.parent.toNat ⟨0, 0⟩).time
      < (nodes.getD b.parent.toNat ⟨0, 0⟩).time) := by
  simp only [find_pre_existing_cmp] at h
  by_cases ht : (nodes.getD a.parent.toNat ⟨0, 0⟩).time
      = (nodes.getD b.parent.toNat ⟨0, 0⟩).time
  · omega
  · rw [if_neg ht] at h
    rw [swap_ne_gt_iff, icmp_ne_lt_iff] at h
    omega

theorem existingEdgesTimeCheck_of_chain (nodes : List Node) :
    ∀ l : List ParentLocation,
      List.Chain' (fun a b => find_pre_existing_cmp nodes a b ≠ .gt) l →
      existingEdgesTimeCheck nodes l = .ok () := by
  intro l
  induction l with
  | nil => intro _; rfl
  | cons a t ih =>
    intro h
    cases t with
    | nil => rfl
    | cons b rest =>
      have h1 := (List.chain'_cons.1 h).1
      have h2 := (List.chain'_cons.1 h).2
      unfold existingEdgesTimeCheck
      rw [if_neg (find_pre_existing_cmp_time_ge nodes a b h1)]
      exact ih h2

theorem collectAlive_error_shape (buffer : EdgeBuffer) :
    ∀ (l : List Int) (e : ForrusttsError),
      collectAlive buffer l = .error e →
      ∃ e2, e = .ListError e2 := by
  intro l
  induction l with
  | nil => intro e h; simp [collectAlive] at h
  | cons a t ih =>
    intro e h
    unfold collectAlive at h
    cases h1 : NestedForwardList.head buffer a with
    | error e2 =>
      rw [h1] at h
      simp at h
      exact ⟨e2, h.symm⟩
    | ok hd =>
      rw [h1] at h
      cases h2 : collectAlive buffer t with
      | error e3 =>
        rw [h2] at h
        simp at h
        subst h
        exact ih e3 h2
      | ok r =>
        rw [h2] at h
        simp at h

/-- C2 (amended): `find_pre_existing_edges` runs the non-increasing-times
consistency check on the run list only after sorting it by parent time
descending (ties: run start ascending, then parent id); since that sort
establishes exactly the checked order, the check always passes and the
function never aborts with the "existing edges not properly sorted by time"
error — the branch is defensive dead code. -/
theorem find_pre_existing_edges_never_time_sort_error
    (tables : TableCollection) (founders : List Int) (buffer : EdgeBuffer) :
    find_pre_existing_edges tables founders buffer ≠
      .error (.SimplificationError
        "existing edges not properly sorted by time") := by
  unfold find_pre_existing_edges
  cases h1 : collectAlive buffer founders with
  | error e =>
    obtain ⟨e2, he⟩ := collectAlive_error_shape buffer founders e h1
    subst he
    simp
  | ok alive =>
    by_cases h2 : alive.isEmpty
    · simp [h2]
    · have hchain := chain'_sortCmp (find_pre_existing_cmp tables.nodes_)
        (find_pre_existing_cmp_flip tables.nodes_) (buildRuns tables alive)
      have hok := existingEdgesTimeCheck_of_chain tables.nodes_ _ hchain
      simp [h2, hok]

/-- C2 (counterexample to the claim as stated): the runs discovered in the
pre-existing edge table carry a strictly increasing adjacent time pair
(founder 0 at time 5 precedes founder 1 at time 7 in table order), yet
`find_pre_existing_edges` returns successfully instead of aborting, because
the check runs only on the sorted run list. -/
theorem find_pre_existing_edges_discovered_order_counterexample :
    collectAlive preExistingExampleBuffer preExistingExampleFounders
        = .ok [0, 1] ∧
    buildRuns preExistingExampleTC [0, 1]
        = [⟨0, 0, 1⟩, ⟨1, 1, 2⟩] ∧
    (preExistingExampleTC.nodes_.getD 0 ⟨0, 0⟩).time
        < (preExistingExampleTC.nodes_.getD 1 ⟨0, 0⟩).time ∧
    (find_pre_existing_edges preExistingExampleTC preExistingExampleFounders
        preExistingExampleBuffer).isOk = true := by
  refine ⟨by decide, by decide, by decide, by decide⟩

/-- C6: for every negative key and every value, in every list state,
`extend` fails with `InvalidIndex` and leaves the four arrays unchanged. -/
theorem extend_negative_key_invalid_index {V : Type}
    (s : NestedForwardList V) (k : Int) (v : V) (hk : k < 0) :
    NestedForwardList.extend s k v = (.error .InvalidIndex, s) := by
  simp [NestedForwardList.extend, NestedForwardList.check_key, hk]

/-- Witness for C6 at a concrete negative key and state. -/
theorem extend_negative_key_invalid_index_witness :
    NestedForwardList.extend (NestedForwardList.new : NestedForwardList Nat)
        (-3) 7 = (.error .InvalidIndex, NestedForwardList.new) :=
  extend_negative_key_invalid_index NestedForwardList.new (-3) 7 (by decide)

/-- C4: `add_edge` returns an error exactly when `right ≤ left` or any of
the four fields is negative; on error the table collection is unchanged (no
partial row), and otherwise exactly the one requested edge is appended. -/
theorem add_edge_rejects_and_appends (tc : TableCollection)
    (left right parent child : Int) :
    ((tc.add_edge left right parent child).1.isOk = true ↔
      (left < right ∧ 0 ≤ left ∧ 0 ≤ right ∧ 0 ≤ parent ∧ 0 ≤ child)) ∧
    (¬ (left < right ∧ 0 ≤ left ∧ 0 ≤ right ∧ 0 ≤ parent ∧ 0 ≤ child) →
      (tc.add_edge left right parent child).2 = tc) ∧
    ((left < right ∧ 0 ≤ left ∧ 0 ≤ right ∧ 0 ≤ parent ∧ 0 ≤ child) →
      (tc.add_edge left right parent child).2
        = { tc with edges_ := tc.edges_ ++ [⟨left, right, parent, child⟩] }) := by
  by_cases hc : left < right ∧ 0 ≤ left ∧ 0 ≤ right ∧ 0 ≤ parent ∧ 0 ≤ child
  · obtain ⟨c1, c2, c3, c4, c5⟩ := hc
    have hn1 : ¬ right ≤ left := by omega
    have hn2 : ¬ left < 0 := by omega
    have hn3 : ¬ right < 0 := by omega
    have hn4 : ¬ parent < 0 := by omega
    have hn5 : ¬ child < 0 := by omega
    simp only [TableCollection.add_edge, edge_table_add_row,
      position_non_negative, node_non_negative, if_neg hn1, if_neg hn2,
      if_neg hn3, if_neg hn4, if_neg hn5]
    refine ⟨?_, ?_, ?_⟩
    · simp [Except.isOk, Except.toBool, c1, c2, c3, c4, c5]
    · intro hcontra
      exact absurd ⟨c1, c2, c3, c4, c5⟩ hcontra
    · intro _
      trivial
  · simp only [TableCollection.add_edge, edge_table_add_row,
      position_non_negative, node_non_negative]
    split_ifs <;> refine ⟨?_, ?_, ?_⟩ <;>
      first
      | (simp [Except.isOk, Except.toBool]; omega)
      | (intro _; trivial)
      | (intro hcond; exact absurd hcond hc)
      | (intro hcond
         exact absurd
           (show left < right ∧ 0 ≤ left ∧ 0 ≤ right ∧ 0 ≤ parent ∧ 0 ≤ child
             from ⟨by omega, by omega, by omega, by omega, by omega⟩) hcond)

/-- Witness for C4: a rejected call leaves the collection unchanged and an
accepted call appends exactly the requested edge. -/
theorem add_edge_rejects_and_appends_witness :
    (TableCollection.add_edge ⟨10, [], [], [], []⟩ 5 5 1 2).2
        = (⟨10, [], [], [], []⟩ : TableCollection) ∧
    (TableCollection.add_edge ⟨10, [], [], [], []⟩ 0 5 1 2).2
        = (⟨10, [], [⟨0, 5, 1, 2⟩], [], []⟩ : TableCollection) := by
  refine ⟨(add_edge_rejects_and_appends ⟨10, [], [], [], []⟩ 5 5 1 2).2.1
    (by decide), ?_⟩
  have h := (add_edge_rejects_and_appends ⟨10, [], [], [], []⟩ 0 5 1 2).2.2
    (by decide)
  exact h

/-- C9: each successful `add_node`, `add_edge`, `add_site`, `add_mutation`
returns the post-insertion length of its table — the new row's index plus
one, not the index. -/
theorem add_row_returns_post_insertion_length (tc : TableCollection)
    (time deme left right parent child pos anc mnode mder : Int)
    (mkey msite : Nat) (mneu : Bool) :
    (∀ v, (tc.add_node time deme).1 = .ok v →
      v = ((tc.add_node time deme).2.nodes_.length : Int) ∧
      v = (tc.nodes_.length : Int) + 1) ∧
    (∀ v, (tc.add_edge left right parent child).1 = .ok v →
      v = (tc.add_edge left right parent child).2.edges_.length ∧
      v = tc.edges_.length + 1) ∧
    (∀ v, (tc.add_site pos anc).1 = .ok v →
      v = (tc.add_site pos anc).2.sites_.length ∧
      v = tc.sites_.length + 1) ∧
    (∀ v, (tc.add_mutation mnode mkey msite mder mneu).1 = .ok v →
      v = (tc.add_mutation mnode mkey msite mder mneu).2.mutations_.length ∧
      v = tc.mutations_.length + 1) := by
  refine ⟨?_, ?_, ?_, ?_⟩
  · intro v hv
    simp only [TableCollection.add_node, node_table_add_row,
      time_non_negative, deme_non_negative] at hv ⊢
    split_ifs at hv ⊢ with h1 h2 <;> simp at hv ⊢ <;> omega
  · intro v hv
    simp only [TableCollection.add_edge, edge_table_add_row,
      position_non_negative, node_non_negative] at hv ⊢
    split_ifs at hv ⊢ with h1 h2 h3 h4 h5 <;> simp at hv ⊢ <;> omega
  · intro v hv
    simp only [TableCollection.add_site, site_table_add_row,
      position_non_negative] at hv ⊢
    split_ifs at hv ⊢ with h1 h2 <;> simp at hv ⊢ <;> omega
  · intro v hv
    simp only [TableCollection.add_mutation, mutation_table_add_row,
      node_non_negative] at hv ⊢
    split_ifs at hv ⊢ with h1 <;> simp at hv ⊢ <;> omega

/-- Witness for C9 at concrete valid rows in an empty collection. -/
theorem add_row_returns_post_insertion_length_witness :
    ((1 : Int) = (((⟨10, [], [], [], []⟩ : TableCollection).add_node 3 0).2.nodes_.length : Int) ∧
      (1 : Int) = ((⟨10, [], [], [], []⟩ : TableCollection).nodes_.length : Int) + 1) ∧
    (1 = ((⟨10, [], [], [], []⟩ : TableCollection).add_edge 0 5 1 2).2.edges_.length ∧
      1 = (⟨10, [], [], [], []⟩ : TableCollection).edges_.length + 1) := by
  refine ⟨(add_row_returns_post_insertion_length ⟨10, [], [], [], []⟩
      3 0 0 5 1 2 0 0 0 0 0 0 false).1 1 (by decide),
    (add_row_returns_post_insertion_length ⟨10, [], [], [], []⟩
      3 0 0 5 1 2 0 0 0 0 0 0 false).2.1 1 (by decide)⟩

/-- C8: after a successful `nullify_list(k)`, traversal of list `k` visits
nothing, every record still fetches its former value, the data and next
arrays are untouched, and only slot `k` of the head/tail arrays changed. -/
theorem nullify_list_kills_traversal_preserves_data {V : Type}
    (s : NestedForwardList V) (k : Int)
    (h : (NestedForwardList.nullify_list s k).1 = .ok ()) :
    NestedForwardList.listOf (NestedForwardList.nullify_list s k).2 k
        = some (.ok []) ∧
    (∀ at_ : Int, NestedForwardList.fetch (NestedForwardList.nullify_list s k).2 at_
        = NestedForwardList.fetch s at_) ∧
    (NestedForwardList.nullify_list s k).2.data_ = s.data_ ∧
    (NestedForwardList.nullify_list s k).2.next_ = s.next_ ∧
    (NestedForwardList.nullify_list s k).2.head_.getD k.toNat (-1) = -1 ∧
    (NestedForwardList.nullify_list s k).2.tail_.getD k.toNat (-1) = -1 ∧
    (∀ i : Nat, i ≠ k.toNat →
      (NestedForwardList.nullify_list s k).2.head_.getD i (-1)
          = s.head_.getD i (-1) ∧
      (NestedForwardList.nullify_list s k).2.tail_.getD i (-1)
          = s.tail_.getD i (-1)) := by
  by_cases hk : k < 0
  · simp [NestedForwardList.nullify_list, NestedForwardList.check_key, hk] at h
  by_cases h1 : s.head_.length ≤ k.toNat
  · simp [NestedForwardList.nullify_list, NestedForwardList.check_key, hk, h1] at h
  by_cases h2 : s.tail_.length ≤ k.toNat
  · simp [NestedForwardList.nullify_list, NestedForwardList.check_key, hk, h1, h2] at h
  have heq : NestedForwardList.nullify_list s k
      = (.ok (), { s with head_ := s.head_.set k.toNat NestedForwardList.null
                          tail_ := s.tail_.set k.toNat NestedForwardList.null }) := by
    simp [NestedForwardList.nullify_list, NestedForwardList.check_key, hk, h1, h2]
  rw [heq]
  refine ⟨?_, fun at_ => rfl, rfl, rfl, ?_, ?_, ?_⟩
  · simp only [NestedForwardList.listOf, NestedForwardList.for_each,
      NestedForwardList.head, NestedForwardList.check_key, if_neg hk]
    rw [get?_set_self s.head_ k.toNat NestedForwardList.null (by omega)]
    simp [NestedForwardList.forEachFrom, NestedForwardList.null]
  · exact getD_set_self s.head_ k.toNat _ _ (by omega)
  · exact getD_set_self s.tail_ k.toNat _ _ (by omega)
  · intro i hi
    exact ⟨getD_set_ne s.head_ k.toNat i _ _ (fun hx => hi hx.symm),
      getD_set_ne s.tail_ k.toNat i _ _ (fun hx => hi hx.symm)⟩

/-- Witness for C8 on a concrete one-record list with key 0. -/
theorem nullify_list_kills_traversal_preserves_data_witness :
    NestedForwardList.listOf
        (NestedForwardList.nullify_list
          (⟨[0], [0], [-1], [42]⟩ : NestedForwardList Nat) 0).2 0
        = some (.ok []) ∧
    NestedForwardList.fetch
        (NestedForwardList.nullify_list
          (⟨[0], [0], [-1], [42]⟩ : NestedForwardList Nat) 0).2 0
        = NestedForwardList.fetch (⟨[0], [0], [-1], [42]⟩ : NestedForwardList Nat) 0 := by
  refine ⟨(nullify_list_kills_traversal_preserves_data
      (⟨[0], [0], [-1], [42]⟩ : NestedForwardList Nat) 0 (by decide)).1,
    (nullify_list_kills_traversal_preserves_data
      (⟨[0], [0], [-1], [42]⟩ : NestedForwardList Nat) 0 (by decide)).2.1 0⟩

/-- C1 (code bug): on a table collection whose edges reference valid node
indices, `sort_tables_for_simplification` fails to order the edges by parent
birth time descending — the comparator reads both times from `a.parent`
(`cindex` is computed from `a.parent` instead of `b.parent`), so every
cross-parent comparison returns `Equal` and the stable sort leaves the
older-parent edge in front of the younger-parent edge. -/
theorem sort_tables_for_simplification_edge_sort_bug :
    edgesValid sortExampleTC = true ∧
    sortExampleTC.sort_tables_for_simplification.edges_
        = sortExampleTC.edges_ ∧
    edgesSortedBySpec sortExampleTC.nodes_
        sortExampleTC.sort_tables_for_simplification.edges_ = false := by
  refine ⟨by decide, by decide, by decide⟩

theorem getD_map_const {α β : Type} (l : List α) (i : Nat) (c : β) :
    (l.map (fun _ => c)).getD i c = c := by
  induction l generalizing i with
  | nil => simp [List.getD]
  | cons a t ih =>
    cases i with
    | zero => rfl
    | succ j => simpa [List.getD] using ih j

theorem reset_len {V : Type} (s : NestedForwardList V) (n : Nat) :
    (s.reset n).len = n := by
  simp [NestedForwardList.reset, NestedForwardList.clear,
    NestedForwardList.len, length_resizeL]

theorem reset_head_null {V : Type} (s : NestedForwardList V) (n i : Nat) :
    (s.reset n).head_.getD i (-1) = -1 := by
  simp only [NestedForwardList.reset, NestedForwardList.clear]
  exact getD_map_const _ i _

/-- C5: for every behaviour of the external collaborators and every input,
a successful `simplify_from_edge_buffer` returns an edge buffer whose
`len()` equals the node count of the committed table collection and whose
list heads are all null (every buffered list is empty). -/
theorem simplify_resets_buffer_to_node_count (setup : SetupFn)
    (merge : MergeFn) (pp : ProcessParentFn) (fuel : Nat)
    (samples : SamplesInfo) (flags : Nat) (state : SimplificationBuffers)
    (edge_buffer : EdgeBuffer) (tables : TableCollection)
    (output : SimplificationOutput) :
    (match simplify_from_edge_buffer setup merge pp fuel samples flags state
        edge_buffer tables output with
     | .error _ => True
     | .ok r => r.2.1.len = r.2.2.1.num_nodes ∧
         ∀ i : Nat, r.2.1.head_.getD i (-1) = -1) := by
  unfold simplify_from_edge_buffer
  cases h : simplifyPhases setup merge pp fuel samples flags state
      edge_buffer tables output with
  | error e => simp
  | ok p =>
    simp only []
    exact ⟨reset_len edge_buffer _, fun i => reset_head_null edge_buffer _ i⟩

theorem forEachFrom_fold {V σ : Type} (s : NestedForwardList V)
    (g : V → σ → σ) :
    ∀ (fuel : Nat) (itr : Int) (l0 L : List V) (a : σ),
      NestedForwardList.forEachFrom s (fun v l => (l ++ [v], true)) fuel itr l0
          = some (.ok L) →
      ∃ suf, L = l0 ++ suf ∧
        NestedForwardList.forEachFrom s (fun v acc => (g v acc, true)) fuel itr a
          = some (.ok (suf.foldl (fun acc v => g v acc) a)) := by
  intro fuel
  induction fuel with
  | zero =>
    intro itr l0 L a h
    by_cases hn : itr = NestedForwardList.null
    · simp [NestedForwardList.forEachFrom, hn] at h
      exact ⟨[], by simp [h], by simp [NestedForwardList.forEachFrom, hn]⟩
    · simp [NestedForwardList.forEachFrom, hn] at h
  | succ fuel ih =>
    intro itr l0 L a h
    by_cases hn : itr = NestedForwardList.null
    · simp [NestedForwardList.forEachFrom, hn] at h
      exact ⟨[], by simp [h], by simp [NestedForwardList.forEachFrom, hn]⟩
    · simp only [NestedForwardList.forEachFrom, if_neg hn] at h ⊢
      cases hf : NestedForwardList.fetch s itr with
      | error e => rw [hf] at h; simp at h
      | ok v =>
        rw [hf] at h
        cases hx : NestedForwardList.next s itr with
        | error e => rw [hx] at h; simp at h
        | ok itr2 =>
          rw [hx] at h
          obtain ⟨suf2, hL, hrun⟩ := ih itr2 (l0 ++ [v]) L (g v a) h
          refine ⟨v :: suf2, ?_, ?_⟩
          · rw [hL]; simp
          · show NestedForwardList.forEachFrom s
                (fun v acc => (g v acc, true)) fuel itr2 (g v a)
              = some (Except.ok ((v :: suf2).foldl (fun acc v => g v acc) a))
            rw [hrun]
            simp

theorem for_each_fold {V σ : Type} (s : NestedForwardList V) (g : V → σ → σ)
    (k : Int) (L : List V) (a : σ)
    (h : NestedForwardList.listOf s k = some (.ok L)) :
    NestedForwardList.for_each s k (fun v acc => (g v acc, true)) a
      = some (.ok (L.foldl (fun acc v => g v acc) a)) := by
  unfold NestedForwardList.listOf at h
  unfold NestedForwardList.for_each at h ⊢
  cases hh : NestedForwardList.head s k with
  | error e => rw [hh] at h; simp at h
  | ok itr =>
    rw [hh] at h
    obtain ⟨suf, hL, hrun⟩ := forEachFrom_fold s g (s.data_.length + 1) itr [] L a h
    simp at hL
    subst hL
    exact hrun

theorem foldl_enqueue_filter (left right : Int) :
    ∀ (l : List Segment) (o : SegmentOverlapper),
      l.foldl (fun acc seg =>
          if left < seg.right ∧ seg.left < right then
            acc.enqueue (max seg.left left) (min seg.right right) seg.node
          else acc) o
        = ⟨o.queue ++
            (l.filter (fun seg =>
              decide (left < seg.right) && decide (seg.left < right))).map
              (fun seg => ⟨max seg.left left, min seg.right right, seg.node⟩)⟩ := by
  intro l
  induction l with
  | nil => intro o; simp
  | cons seg rest ih =>
    intro o
    by_cases hc : left < seg.right ∧ seg.left < right
    · simp only [List.foldl_cons, if_pos hc]
      rw [ih]
      simp [SegmentOverlapper.enqueue, List.filter_cons, hc.1, hc.2]
    · simp only [List.foldl_cons, if_neg hc]
      rw [ih]
      have : ¬ (decide (left < seg.right) && decide (seg.left < right)) = true := by
        simp only [Bool.and_eq_true, decide_eq_true_eq]
        exact fun hx => hc ⟨hx.1, hx.2⟩
      simp [List.filter_cons, this]

/-- C10: `queue_children` enqueues, in the ancestry list's stored order,
exactly the child's ancestry segments that overlap the query interval
`[left, right)`, each clipped to the intersection with its mapped node;
non-overlapping segments are skipped. -/
theorem queue_children_enqueues_overlaps_clipped
    (child left right : Int) (ancestry : NestedForwardList Segment)
    (overlapper : SegmentOverlapper) (l : List Segment)
    (h : NestedForwardList.listOf ancestry child = some (.ok l)) :
    queue_children child left right ancestry overlapper
      = some (.ok ⟨overlapper.queue ++
          (l.filter (fun seg =>
            decide (left < seg.right) && decide (seg.left < right))).map
            (fun seg => ⟨max seg.left left, min seg.right right, seg.node⟩)⟩) := by
  unfold queue_children
  have hrun := for_each_fold ancestry
    (fun seg ovl =>
      if left < seg.right ∧ seg.left < right then
        ovl.enqueue (max seg.left left) (min seg.right right) seg.node
      else ovl)
    child l overlapper h
  rw [hrun]
  rw [foldl_enqueue_filter left right l overlapper]

/-- Witness for C10 on a concrete two-segment ancestry list: the first
segment is clipped on the left, the second on the right, and both keep
their mapped nodes in order. -/
theorem queue_children_enqueues_overlaps_clipped_witness :
    queue_children 0 3 6 (⟨[0], [1], [1, -1], [⟨0, 5, 7⟩, ⟨5, 10, 8⟩]⟩ :
        NestedForwardList Segment) ⟨[]⟩
      = some (.ok ⟨[⟨3, 5, 7⟩, ⟨5, 6, 8⟩]⟩) := by
  have h := queue_children_enqueues_overlaps_clipped 0 3 6
    (⟨[0], [1], [1, -1], [⟨0, 5, 7⟩, ⟨5, 10, 8⟩]⟩ : NestedForwardList Segment)
    ⟨[]⟩ [⟨0, 5, 7⟩, ⟨5, 10, 8⟩] (by decide)
  rw [h]
  decide

namespace NestedForwardList

theorem chainFrom_nil_inv {nx : List Int} {dlen : Nat} {a : Int}
    (h : ChainFrom nx dlen a []) : a = -1 := by
  cases h
  rfl

theorem chainFrom_cons_inv {nx : List Int} {dlen : Nat} {a : Int} {y : Nat}
    {t : List Nat} (h : ChainFrom nx dlen a (y :: t)) :
    0 ≤ a ∧ a.toNat = y ∧ a.toNat < dlen ∧
      ChainFrom nx dlen (nx.getD a.toNat (-1)) t := by
  cases h with
  | cons h0 hr hc => exact ⟨h0, rfl, hr, hc⟩

theorem chainFrom_unique {nx : List Int} {dlen : Nat} :
    ∀ {rs : List Nat} {a : Int} {rs' : List Nat}, ChainFrom nx dlen a rs →
      ChainFrom nx dlen a rs' → rs = rs' := by
  intro rs
  induction rs with
  | nil =>
    intro a rs' h1 h2
    have ha := chainFrom_nil_inv h1
    cases rs' with
    | nil => rfl
    | cons y t =>
      obtain ⟨h0, _, _, _⟩ := chainFrom_cons_inv h2
      omega
  | cons x t ih =>
    intro a rs' h1 h2
    obtain ⟨h0, hxy, hr, hc⟩ := chainFrom_cons_inv h1
    cases rs' with
    | nil =>
      have ha := chainFrom_nil_inv h2
      omega
    | cons y t2 =>
      obtain ⟨h0', hxy', hr', hc'⟩ := chainFrom_cons_inv h2
      have hxy2 : x = y := by omega
      subst hxy2
      rw [ih hc hc']

theorem chainFrom_last_nx {nx : List Int} {dlen : Nat} :
    ∀ {rs : List Nat} {a : Int} {e : Nat}, ChainFrom nx dlen a rs →
      rs.getLast? = some e → nx.getD e (-1) = -1 := by
  intro rs
  induction rs with
  | nil => intro a e _ hlast; simp at hlast
  | cons x t ih =>
    intro a e hch hlast
    obtain ⟨h0, hxy, hr, hc⟩ := chainFrom_cons_inv hch
    cases t with
    | nil =>
      simp at hlast
      have hn := chainFrom_nil_inv hc
      have hxe : a.toNat = e := by omega
      rw [← hxe]
      exact hn
    | cons y t2 =>
      rw [List.getLast?_cons_cons] at hlast
      exact ih hc hlast

theorem chainFrom_mem_lt {nx : List Int} {dlen : Nat} :
    ∀ {rs : List Nat} {a : Int}, ChainFrom nx dlen a rs →
      ∀ x ∈ rs, x < dlen := by
  intro rs
  induction rs with
  | nil => intro a _ x hx; simp at hx
  | cons y t ih =>
    intro a hch x hx
    obtain ⟨h0, hxy, hr, hc⟩ := chainFrom_cons_inv hch
    rcases List.mem_cons.1 hx with h | h
    · omega
    · exact ih hc x h

theorem chainFrom_null_mem_last {nx : List Int} {dlen : Nat} :
    ∀ {rs : List Nat} {a : Int} {e : Nat}, ChainFrom nx dlen a rs →
      e ∈ rs → nx.getD e (-1) = -1 → rs.getLast? = some e := by
  intro rs
  induction rs with
  | nil => intro a e _ hmem; simp at hmem
  | cons y t ih =>
    intro a e hch hmem hnull
    obtain ⟨h0, hxy, hr, hc⟩ := chainFrom_cons_inv hch
    rcases List.mem_cons.1 hmem with h | h
    · subst h
      cases t with
      | nil => rfl
      | cons z t2 =>
        obtain ⟨h0', hxy', hr', hc'⟩ := chainFrom_cons_inv hc
        exfalso
        have hea : nx.getD a.toNat (-1) = -1 := by
          have : a.toNat = e := by omega
          rw [this]
          exact hnull
        omega
    · have hlast := ih hc h hnull
      cases t with
      | nil => simp at h
      | cons z t2 => rw [List.getLast?_cons_cons]; exact hlast

theorem chainFrom_transfer {nx nx2 : List Int} {dlen dlen2 : Nat} :
    ∀ {rs : List Nat} {a : Int}, ChainFrom nx dlen a rs →
      (∀ x ∈ rs, nx2.getD x (-1) = nx.getD x (-1)) → dlen ≤ dlen2 →
      ChainFrom nx2 dlen2 a rs := by
  intro rs
  induction rs with
  | nil =>
    intro a hch _ _
    rw [chainFrom_nil_inv hch]
    exact .nil
  | cons y t ih =>
    intro a hch heq hle
    obtain ⟨h0, hxy, hr, hc⟩ := chainFrom_cons_inv hch
    subst hxy
    refine .cons h0 (by omega) ?_
    rw [heq a.toNat (List.mem_cons_self _ _)]
    exact ih hc (fun x hx => heq x (List.mem_cons_of_mem _ hx)) hle

theorem chainFrom_snoc {nx nx2 : List Int} {dlen dlen2 : Nat} {t d : Nat} :
    ∀ {rs : List Nat} {a : Int}, ChainFrom nx dlen a rs →
      rs.getLast? = some t →
      (∀ x, x ≠ t → nx2.getD x (-1) = nx.getD x (-1)) →
      nx2.getD t (-1) = (d : Int) →
      d < dlen2 → nx2.getD d (-1) = -1 → dlen ≤ dlen2 →
      ChainFrom nx2 dlen2 a (rs ++ [d]) := by
  intro rs
  induction rs with
  | nil => intro a _ hlast; simp at hlast
  | cons y t2 ih =>
    intro a hch hlast heq hset hd2 hdnull hle
    obtain ⟨h0, hxy, hr, hc⟩ := chainFrom_cons_inv hch
    cases t2 with
    | nil =>
      simp only [List.getLast?_singleton, Option.some_inj] at hlast
      have hat : a.toNat = t := by omega
      subst hxy
      refine .cons h0 (by omega) ?_
      rw [hat, hset]
      have hds : ((d : Int)).toNat = d := by omega
      refine .cons (by omega) (by omega) ?_
      rw [hds, hdnull]
      exact .nil
    | cons z t3 =>
      rw [List.getLast?_cons_cons] at hlast
      have hne : a.toNat ≠ t := by
        intro hcontra
        have h1 := chainFrom_last_nx hc hlast
        obtain ⟨h0', _, _, _⟩ := chainFrom_cons_inv hc
        rw [← hcontra] at h1
        omega
      subst hxy
      refine .cons h0 (by omega) ?_
      rw [heq a.toNat hne]
      exact ih hc hlast heq hset hd2 hdnull hle

theorem chainFrom_len_le {nx : List Int} {dlen : Nat}
    (hlen : dlen = nx.length)
    (hinc : ∀ r : Nat, nx.getD r (-1) = -1 ∨
      ((r : Int) < nx.getD r (-1) ∧ (nx.getD r (-1)).toNat < nx.length)) :
    ∀ {rs : List Nat} {a : Int}, ChainFrom nx dlen a rs →
      rs.length ≤ dlen - a.toNat := by
  intro rs
  induction rs with
  | nil => intro a _; simp
  | cons y t ih =>
    intro a hch
    obtain ⟨h0, hxy, hr, hc⟩ := chainFrom_cons_inv hch
    cases t with
    | nil => simp only [List.length_singleton]; omega
    | cons z t2 =>
      obtain ⟨h0', hxy', hr', hc'⟩ := chainFrom_cons_inv hc
      have hbne : ¬ nx.getD a.toNat (-1) = -1 := by omega
      have hb := (hinc a.toNat).resolve_left hbne
      have h2 := ih hc
      simp only [List.length_cons] at h2 ⊢
      omega

theorem get?_eq_some_getD {α : Type} (l : List α) (i : Nat) (d : α)
    (h : i < l.length) : l.get? i = some (l.getD i d) := by
  rw [getD_eq_get?]
  cases hx : l.get? i with
  | none =>
    exfalso
    have := List.get?_eq_none.1 hx
    omega
  | some x => rfl

theorem mem_of_getLast?_eq {α : Type} :
    ∀ {l : List α} {e : α}, l.getLast? = some e → e ∈ l := by
  intro l
  induction l with
  | nil => intro e h; simp at h
  | cons a t ih =>
    intro e h
    cases t with
    | nil =>
      simp at h
      simp [h]
    | cons b t2 =>
      rw [List.getLast?_cons_cons] at h
      exact List.mem_cons_of_mem a (ih h)

theorem getD_ne_default_lt {α : Type} (l : List α) (i : Nat) (d : α)
    (h : l.getD i d ≠ d) : i < l.length := by
  by_contra hc
  rw [getD_of_length_le l i d (by omega)] at h
  exact h rfl

theorem getD_concat_length {α : Type} (l : List α) (x d : α) :
    (l ++ [x]).getD l.length d = x := by
  rw [getD_eq_get?, List.get?_concat_length]
  rfl

theorem valsOf_congr {V : Type} (s1 s2 : NestedForwardList V)
    (rs : List Nat) (h : ∀ x ∈ rs, s1.data_.get? x = s2.data_.get? x) :
    NestedForwardList.valsOf s1 rs = NestedForwardList.valsOf s2 rs := by
  induction rs with
  | nil => rfl
  | cons y t ih =>
    simp only [NestedForwardList.valsOf, List.filterMap_cons]
    rw [h y (List.mem_cons_self _ _)]
    have ht := ih (fun x hx => h x (List.mem_cons_of_mem _ hx))
    simp only [NestedForwardList.valsOf] at ht
    rw [ht]

theorem valsOf_append {V : Type} (s : NestedForwardList V)
    (rs1 rs2 : List Nat) :
    NestedForwardList.valsOf s (rs1 ++ rs2)
      = NestedForwardList.valsOf s rs1 ++ NestedForwardList.valsOf s rs2 := by
  simp [NestedForwardList.valsOf, List.filterMap_append]

theorem forEachFrom_congr {V σ : Type} (s1 s2 : NestedForwardList V)
    (f : V → σ → σ × Bool) (hn : s1.next_ = s2.next_)
    (hdta : s1.data_ = s2.data_) :
    ∀ (fuel : Nat) (itr : Int) (acc : σ),
      forEachFrom s1 f fuel itr acc = forEachFrom s2 f fuel itr acc := by
  have hfetch : fetch s1 = fetch s2 := by
    funext at_
    simp [fetch, hdta]
  have hnext : next s1 = next s2 := by
    funext at_
    simp [next, hn]
  intro fuel
  induction fuel with
  | zero => intro itr acc; rfl
  | succ f2 ih =>
    intro itr acc
    simp only [forEachFrom, hfetch, hnext, ih]

theorem forEachFrom_collect_of_chain {V : Type} (s : NestedForwardList V)
    (hnd : s.next_.length = s.data_.length) :
    ∀ {rs : List Nat} {a : Int},
      ChainFrom s.next_ s.data_.length a rs →
      ∀ (fuel : Nat), rs.length ≤ fuel → ∀ (acc : List V),
        forEachFrom s (fun v l => (l ++ [v], true)) fuel a acc
          = some (.ok (acc ++ valsOf s rs)) := by
  intro rs
  induction rs with
  | nil =>
    intro a hch fuel _ acc
    have ha := chainFrom_nil_inv hch
    subst ha
    cases fuel with
    | zero => simp [forEachFrom, valsOf, null]
    | succ f => simp [forEachFrom, valsOf, null]
  | cons y t ih =>
    intro a hch fuel hfuel acc
    obtain ⟨h0, hxy, hr, hc⟩ := chainFrom_cons_inv hch
    subst hxy
    cases fuel with
    | zero => simp at hfuel
    | succ f =>
      have hanull : ¬ a = null := by
        simp only [null]
        omega
      cases hv : s.data_.get? a.toNat with
      | none =>
        exfalso
        have := List.get?_eq_none.1 hv
        omega
      | some v2 =>
        have hfetch : fetch s a = .ok v2 := by
          unfold fetch check_key
          rw [if_neg (show ¬ a < 0 by omega), hv]
        have hnext : next s a = .ok (s.next_.getD a.toNat (-1)) := by
          unfold next check_key
          rw [if_neg (show ¬ a < 0 by omega),
            get?_eq_some_getD s.next_ a.toNat (-1) (by omega)]
        simp only [forEachFrom, if_neg hanull]
        rw [hfetch, hnext]
        show forEachFrom s (fun v l => (l ++ [v], true)) f
            (s.next_.getD a.toNat (-1)) (acc ++ [v2])
          = some (.ok (acc ++ valsOf s (a.toNat :: t)))
        rw [ih hc f (by simp at hfuel; omega) (acc ++ [v2])]
        have hvals : valsOf s (a.toNat :: t) = v2 :: valsOf s t := by
          unfold valsOf
          rw [List.filterMap_cons, hv]
        rw [hvals]
        simp

theorem listOf_eq_of_chain {V : Type} (s : NestedForwardList V)
    (hinv : Inv s) {k : Int} (hk : 0 ≤ k)
    (hkr : k.toNat < s.head_.length) {rs : List Nat}
    (hch : ChainFrom s.next_ s.data_.length (s.head_.getD k.toNat (-1)) rs) :
    listOf s k = some (.ok (valsOf s rs)) := by
  unfold listOf for_each
  have hh : head s k = .ok (s.head_.getD k.toNat (-1)) := by
    unfold head check_key
    rw [if_neg (show ¬ k < 0 by omega),
      get?_eq_some_getD s.head_ k.toNat (-1) hkr]
  rw [hh]
  have hlen := chainFrom_len_le hinv.nd.symm hinv.nxinc hch
  show forEachFrom s (fun v l => (l ++ [v], true)) (s.data_.length + 1)
      (s.head_.getD k.toNat (-1)) [] = some (.ok (valsOf s rs))
  rw [forEachFrom_collect_of_chain s hinv.nd hch (s.data_.length + 1)
    (by omega) []]
  simp

theorem visitedD_eq_of_chain {V : Type} (s : NestedForwardList V)
    (hinv : Inv s) {k : Int} (hk : 0 ≤ k)
    (hkr : k.toNat < s.head_.length) {rs : List Nat}
    (hch : ChainFrom s.next_ s.data_.length (s.head_.getD k.toNat (-1)) rs) :
    visitedD s k = valsOf s rs := by
  unfold visitedD
  rw [listOf_eq_of_chain s hinv hk hkr hch]

theorem listOf_oob {V : Type} (s : NestedForwardList V) {k : Int}
    (hk : 0 ≤ k) (hkr : s.head_.length ≤ k.toNat) :
    listOf s k = some (.error .InvalidIndex) := by
  unfold listOf for_each
  have hnone : s.head_.get? k.toNat = none := List.get?_eq_none.2 hkr
  have hh : head s k = .error .InvalidIndex := by
    unfold head check_key
    rw [if_neg (show ¬ k < 0 by omega), hnone]
  rw [hh]

theorem visitedD_empty {V : Type} (s : NestedForwardList V) {k : Int}
    (hk : 0 ≤ k) (hempty : s.head_.getD k.toNat (-1) = -1) :
    visitedD s k = [] := by
  by_cases hkr : k.toNat < s.head_.length
  · have hch : ChainFrom s.next_ s.data_.length
        (s.head_.getD k.toNat (-1)) [] := by
      rw [hempty]
      exact .nil
    unfold visitedD
    unfold listOf for_each
    have hh : head s k = .ok (s.head_.getD k.toNat (-1)) := by
      unfold head check_key
      rw [if_neg (show ¬ k < 0 by omega),
        get?_eq_some_getD s.head_ k.toNat (-1) hkr]
    rw [hh, hempty]
    simp [forEachFrom, null]
  · unfold visitedD
    rw [listOf_oob s hk (by omega)]

theorem listOf_eq_visitedD {V : Type} (s : NestedForwardList V)
    (hinv : Inv s) {k : Int} (hk : 0 ≤ k)
    (hkr : k.toNat < s.head_.length) :
    listOf s k = some (.ok (visitedD s k)) := by
  by_cases hnull : s.head_.getD k.toNat (-1) = -1
  · rw [visitedD_empty s hk hnull]
    have hch : ChainFrom s.next_ s.data_.length
        (s.head_.getD k.toNat (-1)) [] := by
      rw [hnull]; exact .nil
    have := listOf_eq_of_chain s hinv hk hkr hch
    simpa [valsOf] using this
  · obtain ⟨rs, e, hch, hlast, htl⟩ := hinv.lists k.toNat hnull
    rw [visitedD_eq_of_chain s hinv hk hkr hch]
    exact listOf_eq_of_chain s hinv hk hkr hch

theorem insert_new_record_facts {V : Type} (u : NestedForwardList V)
    (idx : Nat) (v : V) (hinv : Inv u) (hidx : idx < u.head_.length)
    (hnull : u.head_.getD idx (-1) = -1) :
    Inv (insert_new_record u idx v) ∧
    (∀ k : Int, 0 ≤ k →
      visitedD (insert_new_record u idx v) k
        = visitedD u k ++ (if k.toNat = idx then [v] else [])) := by
  have hht := hinv.ht
  have hnd := hinv.nd
  have hidxt : idx < u.tail_.length := by omega
  have hDt : ((u.data_.length : Int)).toNat = u.data_.length := by omega
  have hrh : (insert_new_record u idx v).head_
      = u.head_.set idx ((u.data_.length : Int)) := rfl
  have hrt : (insert_new_record u idx v).tail_
      = u.tail_.set idx ((u.data_.length : Int)) := rfl
  have hrn : (insert_new_record u idx v).next_ = u.next_ ++ [-1] := rfl
  have hrd : (insert_new_record u idx v).data_ = u.data_ ++ [v] := rfl
  have hrhlen : (insert_new_record u idx v).head_.length = u.head_.length := by
    rw [hrh, List.length_set]
  have hrdlen : (insert_new_record u idx v).data_.length
      = u.data_.length + 1 := by
    rw [hrd, List.length_append, List.length_singleton]
  have hrnlen : (insert_new_record u idx v).next_.length
      = u.next_.length + 1 := by
    rw [hrn, List.length_append, List.length_singleton]
  have hnewnull : (u.next_ ++ [-1]).getD u.data_.length (-1) = -1 := by
    rw [← hnd]
    exact getD_concat_length u.next_ (-1) (-1)
  have hnewchain : ChainFrom (insert_new_record u idx v).next_
      (insert_new_record u idx v).data_.length
      ((u.data_.length : Int)) [u.data_.length] := by
    rw [hrn, hrdlen]
    refine .cons (by omega) (by omega) ?_
    rw [hDt, hnewnull]
    exact .nil
  have htransfer : ∀ {rs : List Nat} {a : Int},
      ChainFrom u.next_ u.data_.length a rs →
      ChainFrom (insert_new_record u idx v).next_
        (insert_new_record u idx v).data_.length a rs := by
    intro rs a hch
    rw [hrn, hrdlen]
    refine chainFrom_transfer hch ?_ (by omega)
    intro x hx
    have hxlt := chainFrom_mem_lt hch x hx
    exact getD_append_lt u.next_ [-1] x (-1) (by omega)
  have hvals_stable : ∀ rs : List Nat, (∀ x ∈ rs, x < u.data_.length) →
      valsOf (insert_new_record u idx v) rs = valsOf u rs := by
    intro rs hlt
    refine valsOf_congr _ _ rs ?_
    intro x hx
    rw [hrd]
    exact get?_append_lt u.data_ [v] x (hlt x hx)
  have hinvr : Inv (insert_new_record u idx v) := by
    refine ⟨?_, ?_, ?_, ?_, ?_⟩
    · rw [hrh, hrt, List.length_set, List.length_set]
      exact hht
    · rw [hrnlen, hrdlen]
      omega
    · intro rr
      rw [hrn]
      have hlen2 : (u.next_ ++ [-1]).length = u.next_.length + 1 := by
        rw [List.length_append, List.length_singleton]
      by_cases hlt : rr < u.next_.length
      · rw [getD_append_lt u.next_ [-1] rr (-1) hlt]
        rcases hinv.nxinc rr with h | h
        · exact Or.inl h
        · exact Or.inr ⟨h.1, by rw [hlen2]; omega⟩
      · by_cases heq2 : rr = u.next_.length
        · subst heq2
          exact Or.inl (getD_concat_length u.next_ (-1) (-1))
        · left
          rw [getD_of_length_le]
          rw [hlen2]
          omega
    · intro k hknn
      rw [hrh] at hknn
      rw [hrh, hrt]
      by_cases hk : k = idx
      · subst hk
        rw [getD_set_self u.head_ k ((u.data_.length : Int)) (-1) hidx] at hknn ⊢
        refine ⟨[u.data_.length], u.data_.length, ?_, by simp, ?_⟩
        · exact hnewchain
        · rw [getD_set_self u.tail_ k ((u.data_.length : Int)) (-1) hidxt]
      · have hne : idx ≠ k := fun h => hk h.symm
        rw [getD_set_ne u.head_ idx k _ (-1) hne] at hknn ⊢
        obtain ⟨rs, e, hch, hlast, htl⟩ := hinv.lists k hknn
        refine ⟨rs, e, htransfer hch, hlast, ?_⟩
        rw [getD_set_ne u.tail_ idx k _ (-1) hne]
        exact htl
    · intro k k2 hkk hnk hnk2
      rw [hrh] at hnk hnk2
      rw [hrt]
      by_cases hk : k = idx
      · subst hk
        have hne2 : k ≠ k2 := hkk
        rw [getD_set_ne u.head_ k k2 _ (-1) hne2] at hnk2
        obtain ⟨rs2, e2, hch2, hlast2, htl2⟩ := hinv.lists k2 hnk2
        have he2lt : e2 < u.data_.length :=
          chainFrom_mem_lt hch2 e2 (mem_of_getLast?_eq hlast2)
        rw [getD_set_self u.tail_ k _ (-1) hidxt,
          getD_set_ne u.tail_ k k2 _ (-1) hne2, htl2]
        omega
      · by_cases hk2 : k2 = idx
        · subst hk2
          have hne1 : k2 ≠ k := fun h => hkk h.symm
          rw [getD_set_ne u.head_ k2 k _ (-1) hne1] at hnk
          obtain ⟨rs1, e1, hch1, hlast1, htl1⟩ := hinv.lists k hnk
          have he1lt : e1 < u.data_.length :=
            chainFrom_mem_lt hch1 e1 (mem_of_getLast?_eq hlast1)
          rw [getD_set_self u.tail_ k2 _ (-1) hidxt,
            getD_set_ne u.tail_ k2 k _ (-1) hne1, htl1]
          omega
        · have hne1 : idx ≠ k := fun h => hk h.symm
          have hne2 : idx ≠ k2 := fun h => hk2 h.symm
          rw [getD_set_ne u.head_ idx k _ (-1) hne1] at hnk
          rw [getD_set_ne u.head_ idx k2 _ (-1) hne2] at hnk2
          rw [getD_set_ne u.tail_ idx k _ (-1) hne1,
            getD_set_ne u.tail_ idx k2 _ (-1) hne2]
          exact hinv.tldis k k2 hkk hnk hnk2
  refine ⟨hinvr, ?_⟩
  intro k hk0
  by_cases hk : k.toNat = idx
  · rw [if_pos hk]
    have hvu : visitedD u k = [] := by
      refine visitedD_empty u hk0 ?_
      rw [hk]
      exact hnull
    rw [hvu]
    have hhd : (insert_new_record u idx v).head_.getD k.toNat (-1)
        = ((u.data_.length : Int)) := by
      rw [hrh, hk]
      exact getD_set_self u.head_ idx _ (-1) hidx
    have hch : ChainFrom (insert_new_record u idx v).next_
        (insert_new_record u idx v).data_.length
        ((insert_new_record u idx v).head_.getD k.toNat (-1))
        [u.data_.length] := by
      rw [hhd]
      exact hnewchain
    rw [visitedD_eq_of_chain _ hinvr hk0 (by omega) hch]
    unfold valsOf
    rw [List.filterMap_cons, hrd, List.get?_concat_length]
    simp
  · rw [if_neg hk]
    have hne : idx ≠ k.toNat := fun h => hk h.symm
    have hhd : (insert_new_record u idx v).head_.getD k.toNat (-1)
        = u.head_.getD k.toNat (-1) := by
      rw [hrh]
      exact getD_set_ne u.head_ idx k.toNat _ (-1) hne
    by_cases hnul2 : u.head_.getD k.toNat (-1) = -1
    · rw [visitedD_empty u hk0 hnul2,
        visitedD_empty _ hk0 (by rw [hhd]; exact hnul2)]
      simp
    · obtain ⟨rs, e, hch, hlast, htl⟩ := hinv.lists k.toNat hnul2
      have hkr : k.toNat < u.head_.length :=
        getD_ne_default_lt u.head_ k.toNat (-1) hnul2
      have hch2 : ChainFrom (insert_new_record u idx v).next_
          (insert_new_record u idx v).data_.length
          ((insert_new_record u idx v).head_.getD k.toNat (-1)) rs := by
        rw [hhd]
        exact htransfer hch
      rw [visitedD_eq_of_chain u hinv hk0 hkr hch,
        visitedD_eq_of_chain _ hinvr hk0 (by omega) hch2]
      rw [hvals_stable rs (chainFrom_mem_lt hch)]
      simp

theorem extend_append_facts {V : Type} (u r : NestedForwardList V)
    (idx : Nat) (v : V) (hinv : Inv u) (hidx : idx < u.head_.length)
    (hnn : u.head_.getD idx (-1) ≠ -1)
    (hr : r = { head_ := u.head_
                tail_ := u.tail_.set idx ((u.data_.length : Int))
                next_ := (u.next_.set (u.tail_.getD idx (-1)).toNat
                  ((u.data_.length : Int))) ++ [-1]
                data_ := u.data_ ++ [v] }) :
    u.tail_.getD idx (-1) ≠ -1 ∧ Inv r ∧
    (∀ k : Int, 0 ≤ k →
      visitedD r k = visitedD u k ++ (if k.toNat = idx then [v] else [])) := by
  obtain ⟨rs, e, hch, hlast, htl⟩ := hinv.lists idx hnn
  have hht := hinv.ht
  have hnd := hinv.nd
  have hidxt : idx < u.tail_.length := by omega
  have helt : e < u.data_.length :=
    chainFrom_mem_lt hch e (mem_of_getLast?_eq hlast)
  have henull : u.next_.getD e (-1) = -1 := chainFrom_last_nx hch hlast
  have htne : u.tail_.getD idx (-1) ≠ -1 := by rw [htl]; omega
  have htoNat : (u.tail_.getD idx (-1)).toNat = e := by rw [htl]; omega
  have hrh : r.head_ = u.head_ := by rw [hr]
  have hrt : r.tail_ = u.tail_.set idx ((u.data_.length : Int)) := by rw [hr]
  have hrn : r.next_
      = (u.next_.set e ((u.data_.length : Int))) ++ [-1] := by
    rw [hr, htoNat]
  have hrd : r.data_ = u.data_ ++ [v] := by rw [hr]
  have hrtlen : r.tail_.length = u.tail_.length := by
    rw [hrt, List.length_set]
  have hrnlen : r.next_.length = u.next_.length + 1 := by
    rw [hrn, List.length_append, List.length_set, List.length_singleton]
  have hrdlen : r.data_.length = u.data_.length + 1 := by
    rw [hrd, List.length_append, List.length_singleton]
  have hN2e : r.next_.getD e (-1) = ((u.data_.length : Int)) := by
    rw [hrn]
    rw [getD_append_lt _ [-1] e (-1) (by rw [List.length_set]; omega)]
    exact getD_set_self u.next_ e _ (-1) (by omega)
  have hN2frame : ∀ x : Nat, x ≠ e →
      r.next_.getD x (-1) = u.next_.getD x (-1) := by
    intro x hx
    rw [hrn]
    by_cases hlt : x < u.next_.length
    · rw [getD_append_lt _ [-1] x (-1) (by rw [List.length_set]; omega)]
      exact getD_set_ne u.next_ e x _ (-1) (fun h => hx h.symm)
    · by_cases hx2 : x = u.next_.length
      · subst hx2
        have hlen3 : u.next_.length
            = (u.next_.set e ((u.data_.length : Int))).length := by
          rw [List.length_set]
        rw [getD_of_length_le u.next_ _ (-1) (by omega)]
        conv =>
          left
          rw [hlen3]
        exact getD_concat_length _ (-1) (-1)
      · rw [getD_of_length_le u.next_ x (-1) (by omega),
          getD_of_length_le _ x (-1)
            (by rw [List.length_append, List.length_set]; simp; omega)]
  have hN2d : r.next_.getD u.data_.length (-1) = -1 := by
    rw [hrn]
    have h5 := getD_concat_length
      (u.next_.set e ((u.data_.length : Int))) (-1) (-1)
    rw [List.length_set, hnd] at h5
    exact h5
  have hchainB : ChainFrom r.next_ r.data_.length (u.head_.getD idx (-1))
      (rs ++ [u.data_.length]) := by
    rw [hrdlen]
    refine chainFrom_snoc hch hlast (fun x hx => hN2frame x hx) hN2e
      (by omega) hN2d (by omega)
  have hnotmem : ∀ (k2 : Nat), k2 ≠ idx → u.head_.getD k2 (-1) ≠ -1 →
      ∀ {rs2 : List Nat} {e2 : Nat},
        ChainFrom u.next_ u.data_.length (u.head_.getD k2 (-1)) rs2 →
        rs2.getLast? = some e2 → u.tail_.getD k2 (-1) = (e2 : Int) →
        e ∉ rs2 := by
    intro k2 hk2 hnn2 rs2 e2 hch2 hlast2 htl2 hmem
    have hlaste := chainFrom_null_mem_last hch2 hmem henull
    rw [hlast2] at hlaste
    have hee : e2 = e := by
      injection hlaste with hh
    have hdis := hinv.tldis k2 idx hk2 hnn2 hnn
    rw [htl2, htl, hee] at hdis
    exact hdis rfl
  have htransferB : ∀ {k2 : Nat}, k2 ≠ idx →
      u.head_.getD k2 (-1) ≠ -1 →
      ∀ {rs2 : List Nat} {e2 : Nat},
        ChainFrom u.next_ u.data_.length (u.head_.getD k2 (-1)) rs2 →
        rs2.getLast? = some e2 → u.tail_.getD k2 (-1) = (e2 : Int) →
        ChainFrom r.next_ r.data_.length (u.head_.getD k2 (-1)) rs2 := by
    intro k2 hk2 hnn2 rs2 e2 hch2 hlast2 htl2
    have hnm := hnotmem k2 hk2 hnn2 hch2 hlast2 htl2
    rw [hrdlen]
    refine chainFrom_transfer hch2 ?_ (by omega)
    intro x hx
    exact hN2frame x (fun h => hnm (h ▸ hx))
  have hvals_stable : ∀ rs2 : List Nat, (∀ x ∈ rs2, x < u.data_.length) →
      valsOf r rs2 = valsOf u rs2 := by
    intro rs2 hlt
    refine valsOf_congr _ _ rs2 ?_
    intro x hx
    rw [hrd]
    exact get?_append_lt u.data_ [v] x (hlt x hx)
  have hinvr : Inv r := by
    refine ⟨?_, ?_, ?_, ?_, ?_⟩
    · rw [hrh, hrtlen]
      exact hht
    · rw [hrnlen, hrdlen]
      omega
    · intro rr
      by_cases hre : rr = e
      · subst hre
        rw [hN2e]
        right
        constructor
        · omega
        · rw [hrnlen]
          omega
      · rw [hN2frame rr hre]
        rcases hinv.nxinc rr with h | h
        · exact Or.inl h
        · exact Or.inr ⟨h.1, by rw [hrnlen]; omega⟩
    · intro k hknn
      rw [hrh] at hknn
      rw [hrh, hrt]
      by_cases hk : k = idx
      · subst hk
        refine ⟨rs ++ [u.data_.length], u.data_.length, hchainB, ?_, ?_⟩
        · rw [List.getLast?_concat]
        · rw [getD_set_self u.tail_ k _ (-1) hidxt]
      · have hne : idx ≠ k := fun h => hk h.symm
        obtain ⟨rs2, e2, hch2, hlast2, htl2⟩ := hinv.lists k hknn
        refine ⟨rs2, e2, htransferB hk hknn hch2 hlast2 htl2, hlast2, ?_⟩
        rw [getD_set_ne u.tail_ idx k _ (-1) hne]
        exact htl2
    · intro k k2 hkk hnk hnk2
      rw [hrh] at hnk hnk2
      rw [hrt]
      by_cases hk : k = idx
      · subst hk
        have hne2 : k ≠ k2 := hkk
        obtain ⟨rs2, e2, hch2, hlast2, htl2⟩ := hinv.lists k2 hnk2
        have he2lt : e2 < u.data_.length :=
          chainFrom_mem_lt hch2 e2 (mem_of_getLast?_eq hlast2)
        rw [getD_set_self u.tail_ k _ (-1) hidxt,
          getD_set_ne u.tail_ k k2 _ (-1) hne2, htl2]
        omega
      · by_cases hk2 : k2 = idx
        · subst hk2
          have hne1 : k2 ≠ k := fun h => hkk h.symm
          obtain ⟨rs1, e1, hch1, hlast1, htl1⟩ := hinv.lists k hnk
          have he1lt : e1 < u.data_.length :=
            chainFrom_mem_lt hch1 e1 (mem_of_getLast?_eq hlast1)
          rw [getD_set_self u.tail_ k2 _ (-1) hidxt,
            getD_set_ne u.tail_ k2 k _ (-1) hne1, htl1]
          omega
        · have hne1 : idx ≠ k := fun h => hk h.symm
          have hne2 : idx ≠ k2 := fun h => hk2 h.symm
          rw [getD_set_ne u.tail_ idx k _ (-1) hne1,
            getD_set_ne u.tail_ idx k2 _ (-1) hne2]
          exact hinv.tldis k k2 hkk hnk hnk2
  refine ⟨htne, hinvr, ?_⟩
  intro k hk0
  by_cases hk : k.toNat = idx
  · rw [if_pos hk]
    have hkr : k.toNat < u.head_.length := by omega
    have hchk : ChainFrom u.next_ u.data_.length
        (u.head_.getD k.toNat (-1)) rs := by
      rw [hk]
      exact hch
    rw [visitedD_eq_of_chain u hinv hk0 hkr hchk]
    have hchkr : ChainFrom r.next_ r.data_.length
        (r.head_.getD k.toNat (-1)) (rs ++ [u.data_.length]) := by
      rw [hrh, hk]
      exact hchainB
    rw [visitedD_eq_of_chain r hinvr hk0 (by rw [hrh]; omega) hchkr]
    rw [valsOf_append]
    rw [hvals_stable rs (chainFrom_mem_lt hch)]
    have hsing : valsOf r [u.data_.length] = [v] := by
      unfold valsOf
      rw [List.filterMap_cons, hrd, List.get?_concat_length]
      rfl
    rw [hsing]
  · rw [if_neg hk]
    have hne : k.toNat ≠ idx := hk
    have hhd : r.head_.getD k.toNat (-1) = u.head_.getD k.toNat (-1) := by
      rw [hrh]
    by_cases hnul2 : u.head_.getD k.toNat (-1) = -1
    · rw [visitedD_empty u hk0 hnul2,
        visitedD_empty r hk0 (by rw [hhd]; exact hnul2)]
      simp
    · obtain ⟨rs2, e2, hch2, hlast2, htl2⟩ := hinv.lists k.toNat hnul2
      have hkr : k.toNat < u.head_.length :=
        getD_ne_default_lt u.head_ k.toNat (-1) hnul2
      have hch2r : ChainFrom r.next_ r.data_.length
          (r.head_.getD k.toNat (-1)) rs2 := by
        rw [hhd]
        exact htransferB hne hnul2 hch2 hlast2 htl2
      rw [visitedD_eq_of_chain u hinv hk0 hkr hch2,
        visitedD_eq_of_chain r hinvr hk0 (by rw [hrh]; omega) hch2r]
      rw [hvals_stable rs2 (chainFrom_mem_lt hch2)]
      simp

theorem resize_facts {V : Type} (s : NestedForwardList V) (n : Nat)
    (hinv : Inv s) (hgrow : s.head_.length ≤ n) :
    Inv { s with head_ := resizeL s.head_ n (-1)
                 tail_ := resizeL s.tail_ n (-1) } ∧
    (∀ m : Nat, (resizeL s.head_ n (-1)).getD m (-1) = s.head_.getD m (-1)) ∧
    (∀ k : Int, 0 ≤ k →
      visitedD { s with head_ := resizeL s.head_ n (-1)
                        tail_ := resizeL s.tail_ n (-1) } k
        = visitedD s k) := by
  have hht := hinv.ht
  have hH : ∀ m : Nat,
      (resizeL s.head_ n (-1)).getD m (-1) = s.head_.getD m (-1) :=
    fun m => getD_resizeL_grow s.head_ n m (-1) hgrow
  have hT : ∀ m : Nat,
      (resizeL s.tail_ n (-1)).getD m (-1) = s.tail_.getD m (-1) :=
    fun m => getD_resizeL_grow s.tail_ n m (-1) (by omega)
  have hs2h : ({ s with head_ := resizeL s.head_ n (-1)
                        tail_ := resizeL s.tail_ n (-1) } :
      NestedForwardList V).head_ = resizeL s.head_ n (-1) := rfl
  have hs2t : ({ s with head_ := resizeL s.head_ n (-1)
                        tail_ := resizeL s.tail_ n (-1) } :
      NestedForwardList V).tail_ = resizeL s.tail_ n (-1) := rfl
  have hs2n : ({ s with head_ := resizeL s.head_ n (-1)
                        tail_ := resizeL s.tail_ n (-1) } :
      NestedForwardList V).next_ = s.next_ := rfl
  have hs2d : ({ s with head_ := resizeL s.head_ n (-1)
                        tail_ := resizeL s.tail_ n (-1) } :
      NestedForwardList V).data_ = s.data_ := rfl
  have hinv2 : Inv { s with head_ := resizeL s.head_ n (-1)
                            tail_ := resizeL s.tail_ n (-1) } := by
    refine ⟨?_, ?_, ?_, ?_, ?_⟩
    · rw [hs2h, hs2t, length_resizeL, length_resizeL]
    · rw [hs2n, hs2d]
      exact hinv.nd
    · intro r
      rw [hs2n]
      exact hinv.nxinc r
    · intro k hknn
      rw [hs2h, hH k] at hknn
      obtain ⟨rs, e, hch, hlast, htl⟩ := hinv.lists k hknn
      refine ⟨rs, e, ?_, hlast, ?_⟩
      · rw [hs2n, hs2d, hs2h, hH k]
        exact hch
      · rw [hs2t, hT k]
        exact htl
    · intro k k2 hkk hnk hnk2
      rw [hs2h, hH k] at hnk
      rw [hs2h, hH k2] at hnk2
      rw [hs2t, hT k, hT k2]
      exact hinv.tldis k k2 hkk hnk hnk2
  refine ⟨hinv2, hH, ?_⟩
  intro k hk0
  by_cases hnul : s.head_.getD k.toNat (-1) = -1
  · rw [visitedD_empty s hk0 hnul,
      visitedD_empty _ hk0 (by rw [hs2h, hH k.toNat]; exact hnul)]
  · obtain ⟨rs, e, hch, hlast, htl⟩ := hinv.lists k.toNat hnul
    have hkr : k.toNat < s.head_.length :=
      getD_ne_default_lt s.head_ k.toNat (-1) hnul
    have hch2 : ChainFrom
        ({ s with head_ := resizeL s.head_ n (-1)
                  tail_ := resizeL s.tail_ n (-1) } :
          NestedForwardList V).next_
        ({ s with head_ := resizeL s.head_ n (-1)
                  tail_ := resizeL s.tail_ n (-1) } :
          NestedForwardList V).data_.length
        (({ s with head_ := resizeL s.head_ n (-1)
                   tail_ := resizeL s.tail_ n (-1) } :
          NestedForwardList V).head_.getD k.toNat (-1)) rs := by
      rw [hs2n, hs2d, hs2h, hH k.toNat]
      exact hch
    rw [visitedD_eq_of_chain s hinv hk0 hkr hch,
      visitedD_eq_of_chain _ hinv2 hk0
        (by rw [hs2h, length_resizeL]; omega) hch2]
    exact valsOf_congr _ s rs (fun x hx => rfl)

theorem extend_step_core {V : Type} (u : NestedForwardList V) (j : Int)
    (v : V) (hinv : Inv u) (hj : 0 ≤ j)
    (hidx : j.toNat < u.head_.length) :
    (extend u j v).1 = .ok () ∧ Inv (extend u j v).2 ∧
    (∀ k : Int, 0 ≤ k →
      visitedD (extend u j v).2 k
        = visitedD u k ++ (if k = j then [v] else [])) := by
  have hres0 : ¬ u.head_.length ≤ j.toNat := by omega
  by_cases hnull : u.head_.getD j.toNat (-1) = -1
  · have hE : extend u j v = (.ok (), insert_new_record u j.toNat v) := by
      simp only [extend, check_key, null,
        if_neg (show ¬ j < 0 by omega), if_neg hres0, if_pos hnull]
    obtain ⟨hinvr, hvis⟩ := insert_new_record_facts u j.toNat v hinv hidx hnull
    rw [hE]
    refine ⟨rfl, hinvr, ?_⟩
    intro k hk
    rw [hvis k hk]
    congr 1
    by_cases h : k = j
    · rw [if_pos (by omega), if_pos h]
    · rw [if_neg (show ¬ k.toNat = j.toNat by omega), if_neg h]
  · obtain ⟨rsx, ex, hchx, hlastx, htlx⟩ := hinv.lists j.toNat hnull
    have htne : ¬ u.tail_.getD j.toNat (-1) = -1 := by rw [htlx]; omega
    have hE : extend u j v
        = (.ok (), { head_ := u.head_
                     tail_ := u.tail_.set j.toNat ((u.data_.length : Int))
                     next_ := (u.next_.set (u.tail_.getD j.toNat (-1)).toNat
                       ((u.data_.length : Int))) ++ [-1]
                     data_ := u.data_ ++ [v] }) := by
      simp only [extend, check_key, null,
        if_neg (show ¬ j < 0 by omega), if_neg hres0, if_neg hnull,
        if_neg htne]
    obtain ⟨_, hinvr, hvis⟩ := extend_append_facts u (extend u j v).2
      j.toNat v hinv hidx hnull (by rw [hE])
    refine ⟨by rw [hE], hinvr, ?_⟩
    intro k hk
    rw [hvis k hk]
    congr 1
    by_cases h : k = j
    · rw [if_pos (by omega), if_pos h]
    · rw [if_neg (show ¬ k.toNat = j.toNat by omega), if_neg h]

theorem extend_step {V : Type} (s : NestedForwardList V) (j : Int) (v : V)
    (hinv : Inv s) (hj : 0 ≤ j) :
    (extend s j v).1 = .ok () ∧ Inv (extend s j v).2 ∧
    (∀ k : Int, 0 ≤ k →
      visitedD (extend s j v).2 k
        = visitedD s k ++ (if k = j then [v] else [])) := by
  by_cases hres : s.head_.length ≤ j.toNat
  · obtain ⟨hinv1, hH, hVis⟩ := resize_facts s (j.toNat + 1) hinv (by omega)
    have hlen1 : ({ s with head_ := resizeL s.head_ (j.toNat + 1) (-1)
                           tail_ := resizeL s.tail_ (j.toNat + 1) (-1) } :
        NestedForwardList V).head_.length = j.toNat + 1 := by
      rw [show ({ s with head_ := resizeL s.head_ (j.toNat + 1) (-1)
                         tail_ := resizeL s.tail_ (j.toNat + 1) (-1) } :
        NestedForwardList V).head_ = resizeL s.head_ (j.toNat + 1) (-1)
        from rfl, length_resizeL]
    have hsplit : extend s j v
        = extend { s with head_ := resizeL s.head_ (j.toNat + 1) (-1)
                          tail_ := resizeL s.tail_ (j.toNat + 1) (-1) } j v := by
      simp only [extend, check_key, null,
        if_neg (show ¬ j < 0 by omega), if_pos hres,
        if_neg (show ¬ ({ s with
          head_ := resizeL s.head_ (j.toNat + 1) (-1)
          tail_ := resizeL s.tail_ (j.toNat + 1) (-1) } :
            NestedForwardList V).head_.length ≤ j.toNat
          from by rw [hlen1]; omega)]
    obtain ⟨h1, h2, h3⟩ := extend_step_core
      { s with head_ := resizeL s.head_ (j.toNat + 1) (-1)
               tail_ := resizeL s.tail_ (j.toNat + 1) (-1) } j v hinv1 hj
      (by rw [hlen1]; omega)
    rw [hsplit]
    exact ⟨h1, h2, fun k hk => by rw [h3 k hk, hVis k hk]⟩
  · exact extend_step_core s j v hinv hj (by omega)

theorem inv_new {V : Type} : Inv (new : NestedForwardList V) := by
  refine ⟨rfl, rfl, ?_, ?_, ?_⟩
  · intro r
    left
    rfl
  · intro k hknn
    exact absurd rfl hknn
  · intro k k2 hkk hnk hnk2
    exact absurd rfl hnk

theorem inv_reset {V : Type} (s : NestedForwardList V) (n : Nat) :
    Inv (reset s n) := by
  have hh : (reset s n).head_.length = n := reset_len s n
  have ht2 : (reset s n).tail_.length = n := by
    simp [reset, clear, length_resizeL]
  have hhnull : ∀ i : Nat, (reset s n).head_.getD i (-1) = -1 :=
    fun i => reset_head_null s n i
  refine ⟨by rw [hh, ht2], rfl, ?_, ?_, ?_⟩
  · intro r
    left
    rfl
  · intro k hknn
    exact absurd (hhnull k) hknn
  · intro k k2 hkk hnk hnk2
    exact absurd (hhnull k) hnk

theorem inv_nullify {V : Type} (s : NestedForwardList V) (k : Int)
    (hinv : Inv s) : Inv (nullify_list s k).2 := by
  by_cases hk : k < 0
  · simp only [nullify_list, check_key, if_pos hk]
    exact hinv
  by_cases h1 : s.head_.length ≤ k.toNat
  · simp only [nullify_list, check_key, if_neg hk, if_pos h1]
    exact hinv
  by_cases h2 : s.tail_.length ≤ k.toNat
  · simp only [nullify_list, check_key, if_neg hk, if_neg h1, if_pos h2]
    exact hinv
  have hE : (nullify_list s k).2
      = { s with head_ := s.head_.set k.toNat (-1)
                 tail_ := s.tail_.set k.toNat (-1) } := by
    simp only [nullify_list, check_key, null, if_neg hk, if_neg h1, if_neg h2]
  rw [hE]
  have hrh : ({ s with head_ := s.head_.set k.toNat (-1)
                       tail_ := s.tail_.set k.toNat (-1) } :
      NestedForwardList V).head_ = s.head_.set k.toNat (-1) := rfl
  have hrt : ({ s with head_ := s.head_.set k.toNat (-1)
                       tail_ := s.tail_.set k.toNat (-1) } :
      NestedForwardList V).tail_ = s.tail_.set k.toNat (-1) := rfl
  refine ⟨?_, hinv.nd, hinv.nxinc, ?_, ?_⟩
  · rw [hrh, hrt, List.length_set, List.length_set]
    exact hinv.ht
  · intro kk hknn
    rw [hrh] at hknn
    rw [hrh, hrt]
    by_cases hkk : kk = k.toNat
    · subst hkk
      rw [getD_set_self s.head_ k.toNat (-1) (-1) (by omega)] at hknn
      exact absurd rfl hknn
    · have hne : k.toNat ≠ kk := fun h => hkk h.symm
      rw [getD_set_ne s.head_ k.toNat kk _ (-1) hne] at hknn
      obtain ⟨rs, e, hch, hlast, htl⟩ := hinv.lists kk hknn
      refine ⟨rs, e, ?_, hlast, ?_⟩
      · rw [getD_set_ne s.head_ k.toNat kk _ (-1) hne]
        exact hch
      · rw [getD_set_ne s.tail_ k.toNat kk _ (-1) hne]
        exact htl
  · intro kk kk2 hkk hnk hnk2
    rw [hrh] at hnk hnk2
    rw [hrt]
    by_cases hq1 : kk = k.toNat
    · subst hq1
      rw [getD_set_self s.head_ k.toNat (-1) (-1) (by omega)] at hnk
      exact absurd rfl hnk
    · by_cases hq2 : kk2 = k.toNat
      · subst hq2
        rw [getD_set_self s.head_ k.toNat (-1) (-1) (by omega)] at hnk2
        exact absurd rfl hnk2
      · have hne1 : k.toNat ≠ kk := fun h => hq1 h.symm
        have hne2 : k.toNat ≠ kk2 := fun h => hq2 h.symm
        rw [getD_set_ne s.head_ k.toNat kk _ (-1) hne1] at hnk
        rw [getD_set_ne s.head_ k.toNat kk2 _ (-1) hne2] at hnk2
        rw [getD_set_ne s.tail_ k.toNat kk _ (-1) hne1,
          getD_set_ne s.tail_ k.toNat kk2 _ (-1) hne2]
        exact hinv.tldis kk kk2 hkk hnk hnk2

theorem inv_fetch_mut {V : Type} (s : NestedForwardList V) (at_ : Int)
    (v : V) (hinv : Inv s) : Inv (fetch_mut s at_ v).2 := by
  by_cases hk : at_ < 0
  · simp only [fetch_mut, check_key, if_pos hk]
    exact hinv
  by_cases h1 : s.data_.length ≤ at_.toNat
  · simp only [fetch_mut, check_key, if_neg hk, if_pos h1]
    exact hinv
  have hE : (fetch_mut s at_ v).2
      = { s with data_ := s.data_.set at_.toNat v } := by
    simp only [fetch_mut, check_key, if_neg hk, if_neg h1]
  rw [hE]
  have hdl : ({ s with data_ := s.data_.set at_.toNat v } :
      NestedForwardList V).data_.length = s.data_.length := by
    rw [show ({ s with data_ := s.data_.set at_.toNat v } :
      NestedForwardList V).data_ = s.data_.set at_.toNat v from rfl,
      List.length_set]
  refine ⟨hinv.ht, ?_, hinv.nxinc, ?_, hinv.tldis⟩
  · rw [hdl]
    exact hinv.nd
  · intro kk hknn
    obtain ⟨rs, e, hch, hlast, htl⟩ := hinv.lists kk hknn
    refine ⟨rs, e, ?_, hlast, htl⟩
    rw [hdl]
    exact hch

theorem reachable_inv {V : Type} {s : NestedForwardList V}
    (h : Reachable s) : Inv s := by
  induction h with
  | base => exact inv_new
  | extend_step s2 k v hr ih =>
    by_cases hk : k < 0
    · rw [show (extend s2 k v).2 = s2 from by
        rw [extend_negative_key_invalid_index s2 k v hk]]
      exact ih
    · exact (extend_step s2 k v ih (by omega)).2.1
  | reset_step s2 n hr ih => exact inv_reset s2 n
  | clear_step s2 hr ih => exact inv_new
  | nullify_step s2 k hr ih => exact inv_nullify s2 k ih
  | fetch_mut_step s2 at_ v hr ih => exact inv_fetch_mut s2 at_ v ih

end NestedForwardList

/-- C3: from `new()` or any state reachable by the public operations, an
`extend` call never returns the `NullTail` error: the defensive
tail-is-null branch is unreachable under append-only use. -/
theorem extend_null_tail_unreachable {V : Type} (s : NestedForwardList V)
    (h : NestedForwardList.Reachable s) (k : Int) (v : V) :
    (NestedForwardList.extend s k v).1 ≠ .error .NullTail := by
  by_cases hk : k < 0
  · rw [extend_negative_key_invalid_index s k v hk]
    simp
  · have hstep := NestedForwardList.extend_step s k v
      (NestedForwardList.reachable_inv h) (by omega)
    rw [hstep.1]
    simp

/-- Witness for C3 at the freshly created list. -/
theorem extend_null_tail_unreachable_witness :
    (NestedForwardList.extend (NestedForwardList.new : NestedForwardList Nat)
      0 37).1 ≠ .error .NullTail :=
  extend_null_tail_unreachable NestedForwardList.new .base 0 37

theorem applyExtends_inv_visitedD {V : Type} (k : Int) (hk : 0 ≤ k) :
    ∀ (ops : List (Int × V)) (s : NestedForwardList V),
      NestedForwardList.Inv s → (∀ p ∈ ops, 0 ≤ p.1) →
      NestedForwardList.Inv (NestedForwardList.applyExtends s ops) ∧
      NestedForwardList.visitedD (NestedForwardList.applyExtends s ops) k
        = NestedForwardList.visitedD s k
          ++ (ops.filter (fun p => p.1 == k)).map Prod.snd := by
  intro ops
  induction ops with
  | nil =>
    intro s hinv _
    exact ⟨hinv, by simp [NestedForwardList.applyExtends]⟩
  | cons p rest ih =>
    intro s hinv hops
    have hp0 : 0 ≤ p.1 := hops p (List.mem_cons_self _ _)
    have hstep := NestedForwardList.extend_step s p.1 p.2 hinv hp0
    have happ : NestedForwardList.applyExtends s (p :: rest)
        = NestedForwardList.applyExtends
            (NestedForwardList.extend s p.1 p.2).2 rest := by
      simp [NestedForwardList.applyExtends]
    rw [happ]
    obtain ⟨hinv2, hvis2⟩ := ih (NestedForwardList.extend s p.1 p.2).2
      hstep.2.1 (fun q hq => hops q (List.mem_cons_of_mem _ hq))
    refine ⟨hinv2, ?_⟩
    rw [hvis2, hstep.2.2 k hk]
    by_cases hpk : p.1 = k
    · rw [if_pos hpk.symm, List.filter_cons, if_pos (by simp [hpk])]
      simp
    · rw [if_neg (fun h => hpk h.symm), List.filter_cons,
        if_neg (by simp [hpk])]
      simp

/-- C7: appending values to a non-negative key `k` via `extend`, possibly
interleaved with appends to other keys, makes a subsequent always-true
`for_each(k, ·)` traversal visit exactly those values in append order,
starting from any reachable state whose list `k` is empty. -/
theorem extend_preserves_insertion_order {V : Type}
    (s0 : NestedForwardList V) (k : Int) (ops : List (Int × V))
    (hreach : NestedForwardList.Reachable s0) (hk : 0 ≤ k)
    (hempty : s0.head_.getD k.toNat (-1) = -1)
    (hops : ∀ p ∈ ops, 0 ≤ p.1) :
    NestedForwardList.visitedD (NestedForwardList.applyExtends s0 ops) k
      = (ops.filter (fun p => p.1 == k)).map Prod.snd ∧
    (k.toNat < (NestedForwardList.applyExtends s0 ops).head_.length →
      NestedForwardList.listOf (NestedForwardList.applyExtends s0 ops) k
        = some (.ok ((ops.filter (fun p => p.1 == k)).map Prod.snd))) := by
  have hinv := NestedForwardList.reachable_inv hreach
  obtain ⟨hinv2, hvis⟩ := applyExtends_inv_visitedD k hk ops s0 hinv hops
  have hv0 : NestedForwardList.visitedD s0 k = [] :=
    NestedForwardList.visitedD_empty s0 hk hempty
  rw [hv0] at hvis
  simp only [List.nil_append] at hvis
  refine ⟨hvis, ?_⟩
  intro hrange
  rw [NestedForwardList.listOf_eq_visitedD _ hinv2 hk hrange, hvis]

/-- Witness for C7: three appends, two to key 0 and one interleaved to key
1, are visited on key 0 as exactly the two key-0 values in order. -/
theorem extend_preserves_insertion_order_witness :
    NestedForwardList.visitedD
      (NestedForwardList.applyExtends
        (NestedForwardList.new : NestedForwardList Nat)
        [(0, 10), (1, 5), (0, 20)]) 0 = [10, 20] := by
  have h := extend_preserves_insertion_order
    (NestedForwardList.new : NestedForwardList Nat) 0
    [(0, 10), (1, 5), (0, 20)] .base (by decide) (by decide) (by decide)
  rw [h.1]
  decide

end Forrustts